import Mathlib

/-!
Verification of fileseeker (fileseeker.py): a shallow embedding of the
`scan` and `detect` operations over an explicit filesystem model, together
with theorems about snapshot construction and change classification.

Modelling conventions:
* Python dictionaries become insertion-ordered association lists
  (`List (key × value)`): assignment replaces an existing binding in place
  and otherwise appends, exactly like CPython dicts.
* Directory paths become lists of path components (`Path := List String`).
  The program only ever compares the path strings produced by `os.walk`
  (built with `os.path.join`) for equality, and real path components never
  contain a separator, so two such strings are equal exactly when their
  component lists are equal.
* The filesystem is a value: a map from existing root paths to directory
  trees.  `os.path.isdir` is lookup success; `os.walk` is a pure traversal.
* File reads are fallible: `scan`/`detect` open files in text mode
  (`open(path, "r")`), so a read either raises (unreadable file, or bytes
  that are not valid UTF-8) or yields the decoded text with universal
  newline translation applied; the hash is then taken of the UTF-8
  re-encoding of that text.  A raised exception is modelled as `none`
  propagating out of the operation, which then writes no artifact.
-/

set_option maxHeartbeats 1000000

set_option maxRecDepth 100000

/-! ## Association lists with Python dict semantics -/

/-- Association list lookup, matching Python dict indexing and the `in`
operator on dicts (first binding wins; maps built below never hold
duplicate keys). -/
def dlookup {α β : Type} [DecidableEq α] : List (α × β) → α → Option β
  | [], _ => none
  | (k, v) :: rest, x => if x = k then some v else dlookup rest x

/-- Association list update, matching Python dict assignment: replace the
existing binding in place, otherwise append at the end (CPython dicts keep
the original position of an overwritten key). -/
def dinsert {α β : Type} [DecidableEq α] : List (α × β) → α → β → List (α × β)
  | [], k, v => [(k, v)]
  | (k0, v0) :: rest, k, v =>
    if k = k0 then (k0, v) :: rest else (k0, v0) :: dinsert rest k v

/-- Boolean list membership, matching the Python `in` operator on lists. -/
def lmem {α : Type} [DecidableEq α] (x : α) : List α → Bool
  | [] => false
  | y :: rest => if x = y then true else lmem x rest

/-- Boolean test that a list has no duplicate elements. -/
def lnodup {α : Type} [DecidableEq α] : List α → Bool
  | [] => true
  | y :: rest => !(lmem y rest) && lnodup rest

/-! ## Text-mode file reading

`scan` and `detect_files` read files with `open(path, "r")` followed by
`f.read().encode("utf-8")`.  A Python 3 text-mode read strictly decodes the
raw bytes as UTF-8 (raising `UnicodeDecodeError` on invalid input) and then
applies universal newline translation, turning `"\r\n"` and lone `"\r"`
into `"\n"`.  Bytes and code points are modelled as `Nat`. -/

/-- Strict UTF-8 decoding of a byte list into a code point list, rejecting
continuation errors, overlong forms, surrogates and out-of-range values,
as CPython does for text-mode reads. -/
def utf8Decode : List Nat → Option (List Nat)
  | [] => some []
  | b :: rest =>
    if b < 0x80 then (utf8Decode rest).map (b :: ·)
    else if b < 0xC2 then none
    else if b < 0xE0 then
      match rest with
      | b1 :: rest2 =>
        if 0x80 ≤ b1 ∧ b1 < 0xC0 then
          (utf8Decode rest2).map (((b - 0xC0) * 64 + (b1 - 0x80)) :: ·)
        else none
      | [] => none
    else if b < 0xF0 then
      match rest with
      | b1 :: b2 :: rest3 =>
        if (if b = 0xE0 then 0xA0 else 0x80) ≤ b1 ∧
            b1 < (if b = 0xED then 0xA0 else 0xC0) ∧
            0x80 ≤ b2 ∧ b2 < 0xC0 then
          (utf8Decode rest3).map
            (((b - 0xE0) * 4096 + (b1 - 0x80) * 64 + (b2 - 0x80)) :: ·)
        else none
      | _ => none
    else if b < 0xF5 then
      match rest with
      | b1 :: b2 :: b3 :: rest4 =>
        if (if b = 0xF0 then 0x90 else 0x80) ≤ b1 ∧
            b1 < (if b = 0xF4 then 0x90 else 0xC0) ∧
            0x80 ≤ b2 ∧ b2 < 0xC0 ∧ 0x80 ≤ b3 ∧ b3 < 0xC0 then
          (utf8Decode rest4).map
            (((b - 0xF0) * 262144 + (b1 - 0x80) * 4096 +
              (b2 - 0x80) * 64 + (b3 - 0x80)) :: ·)
        else none
      | _ => none
    else none

/-- Universal newline translation on decoded code points: CR LF and lone CR
both become LF, as in Python text mode with the default `newline=None`. -/
def nlTranslate : List Nat → List Nat
  | [] => []
  | 13 :: 10 :: rest => 10 :: nlTranslate rest
  | 13 :: rest => 10 :: nlTranslate rest
  | c :: rest => c :: nlTranslate rest

/-- UTF-8 encoding of one code point. -/
def utf8EncodeChar (c : Nat) : List Nat :=
  if c < 0x80 then [c]
  else if c < 0x800 then [0xC0 + c / 64, 0x80 + c % 64]
  else if c < 0x10000 then
    [0xE0 + c / 4096, 0x80 + c / 64 % 64, 0x80 + c % 64]
  else
    [0xF0 + c / 262144, 0x80 + c / 4096 % 64, 0x80 + c / 64 % 64,
      0x80 + c % 64]

/-- UTF-8 encoding of a code point list, as `str.encode("utf-8")`. -/
def utf8Encode (cs : List Nat) : List Nat := (cs.map utf8EncodeChar).flatten

/-! ## SHA-256 (`hashlib.sha256(...).hexdigest()`)

A direct FIPS 180-4 implementation over byte lists, with 32-bit words as
`Nat` reduced modulo `2 ^ 32`. -/

/-- Truncation to a 32-bit word. -/
def w32 (n : Nat) : Nat := n % 4294967296

/-- Right rotation of a 32-bit word by `k` places. -/
def rotr32 (k x : Nat) : Nat := w32 ((x >>> k) ||| ((x % 2 ^ k) <<< (32 - k)))

def bsig0 (x : Nat) : Nat := rotr32 2 x ^^^ rotr32 13 x ^^^ rotr32 22 x

def bsig1 (x : Nat) : Nat := rotr32 6 x ^^^ rotr32 11 x ^^^ rotr32 25 x

def ssig0 (x : Nat) : Nat := rotr32 7 x ^^^ rotr32 18 x ^^^ (x >>> 3)

def ssig1 (x : Nat) : Nat := rotr32 17 x ^^^ rotr32 19 x ^^^ (x >>> 10)

def chF (x y z : Nat) : Nat := (x &&& y) ^^^ ((x ^^^ 4294967295) &&& z)

def majF (x y z : Nat) : Nat := (x &&& y) ^^^ (x &&& z) ^^^ (y &&& z)

/-- SHA-256 round constants. -/
def K256 : List Nat :=
  [1116352408, 1899447441, 3049323471, 3921009573, 961987163,
   1508970993, 2453635748, 2870763221, 3624381080, 310598401,
   607225278, 1426881987, 1925078388, 2162078206, 2614888103,
   3248222580, 3835390401, 4022224774, 264347078, 604807628,
   770255983, 1249150122, 1555081692, 1996064986, 2554220882,
   2821834349, 2952996808, 3210313671, 3336571891, 3584528711,
   113926993, 338241895, 666307205, 773529912, 1294757372,
   1396182291, 1695183700, 1986661051, 2177026350, 2456956037,
   2730485921, 2820302411, 3259730800, 3345764771, 3516065817,
   3600352804, 4094571909, 275423344, 430227734, 506948616,
   659060556, 883997877, 958139571, 1322822218, 1537002063,
   1747873779, 1955562222, 2024104815, 2227730452, 2361852424,
   2428436474, 2756734187, 3204031479, 3329325298]

/-- SHA-256 initial hash state. -/
def H256 : List Nat :=
  [1779033703, 3144134277, 1013904242, 2773480762,
   1359893119, 2600822924, 528734635, 1541459225]

/-- Big-endian 8-byte encoding of the bit length. -/
def be64 (n : Nat) : List Nat :=
  [n / 2 ^ 56 % 256, n / 2 ^ 48 % 256, n / 2 ^ 40 % 256, n / 2 ^ 32 % 256,
   n / 2 ^ 24 % 256, n / 2 ^ 16 % 256, n / 2 ^ 8 % 256, n % 256]

/-- Big-endian 4-byte encoding of a 32-bit word. -/
def be4 (n : Nat) : List Nat :=
  [n / 16777216 % 256, n / 65536 % 256, n / 256 % 256, n % 256]

/-- Group bytes into 32-bit big-endian words. -/
def bytesToWords : List Nat → List Nat
  | a :: b :: c :: d :: rest =>
    (((a * 256 + b) * 256 + c) * 256 + d) :: bytesToWords rest
  | _ => []

/-- Structural worker for `chunks64`: the first argument is fuel, always
instantiated with the length of the list, which suffices because every
step consumes at least one element. -/
def chunks64Go : Nat → List Nat → List (List Nat)
  | _, [] => []
  | 0, _ :: _ => []
  | n + 1, x :: rest => ((x :: rest).take 64) :: chunks64Go n ((x :: rest).drop 64)

/-- Split the padded message into 64-byte blocks. -/
def chunks64 (l : List Nat) : List (List Nat) := chunks64Go l.length l

/-- Extend a 16-word block schedule by `n` further words. -/
def extendW (w : List Nat) : Nat → List Nat
  | 0 => w
  | n + 1 =>
    extendW
      (w ++ [w32 (ssig1 (w.getD (w.length - 2) 0) + w.getD (w.length - 7) 0 +
        ssig0 (w.getD (w.length - 15) 0) + w.getD (w.length - 16) 0)]) n

/-- The 64 rounds of the SHA-256 compression function. -/
def compress256 (state : List Nat) : List (Nat × Nat) → List Nat
  | [] => state
  | (k, wt) :: rest =>
    match state with
    | [a, b, c, d, e, f, g, h] =>
      compress256
        [w32 (w32 (h + bsig1 e + chF e f g + k + wt) +
           w32 (bsig0 a + majF a b c)),
         a, b, c, w32 (d + w32 (h + bsig1 e + chF e f g + k + wt)), e, f, g]
        rest
    | _ => state

/-- Add two word states elementwise modulo `2 ^ 32`. -/
def addState (h s : List Nat) : List Nat :=
  (h.zip s).map (fun p => w32 (p.1 + p.2))

/-- Fold the compression function over all message blocks. -/
def processChunks (h : List Nat) : List (List Nat) → List Nat
  | [] => h
  | c :: rest =>
    processChunks (addState h (compress256 h (K256.zip (extendW (bytesToWords c) 48)))) rest

/-- SHA-256 digest of a byte list, as 32 bytes. -/
def sha256bytes (msg : List Nat) : List Nat :=
  let padded :=
    msg ++ 128 :: List.replicate ((119 - msg.length % 64) % 64) 0 ++
      be64 (8 * msg.length)
  ((processChunks H256 (chunks64 padded)).map be4).flatten

/-- Lowercase hexadecimal digit. -/
def hexChar (d : Nat) : Char := Char.ofNat (if d < 10 then 48 + d else 87 + d)

/-- Lowercase hexadecimal rendering of one byte. -/
def byteHex (b : Nat) : List Char := [hexChar (b / 16), hexChar (b % 16)]

/-- Lowercase hex SHA-256 digest, as `hashlib.sha256(bytes).hexdigest()`. -/
def sha256hex (msg : List Nat) : String :=
  String.mk (((sha256bytes msg).map byteHex).flatten)

/-! ## Filesystem model

`fileseeker.py` observes the filesystem only through `os.path.isdir`,
`os.walk` and `open`.  A directory tree is a value; a whole filesystem maps
each existing directory path to its tree.  Reading a file can fail
(permissions, races), recorded in the `readable` flag. -/

/-- A directory path, as the list of components joined by `os.path.join`. -/
abbrev FPath := List String

/-- One regular file: its name, raw byte content, and whether opening it
for reading succeeds. -/
structure FSFile where
  fname : String
  content : List Nat
  readable : Bool
  deriving DecidableEq

/-- A directory tree: the directory name, its regular files, and its
subdirectories.  For a tree used as a scan root the name field is unused,
because `os.walk` reports the root under the caller-supplied path. -/
inductive FSTree where
  | dir (dname : String) (files : List FSFile) (subdirs : List FSTree)

/-- Name of the directory at the root of a tree. -/
def FSTree.dnameOf : FSTree → String
  | .dir n _ _ => n

/-- A filesystem state: the directory paths that exist, each with its
tree.  `os.path.isdir p` is `(dlookup fs p).isSome`. -/
abbrev FS := List (FPath × FSTree)

mutual
/-- The `(dirpath, filenames)` pairs produced by `os.walk` on a tree rooted
at `p`, in top-down order: the directory itself first, then its
subdirectories in listed order. -/
def walk (p : FPath) (t : FSTree) : List (FPath × List FSFile) :=
  match t with
  | .dir _ files subs => (p, files) :: walkList p subs
/-- Walk each subtree of a directory at path `p`. -/
def walkList (p : FPath) (ts : List FSTree) : List (FPath × List FSFile) :=
  match ts with
  | [] => []
  | t :: rest => walk (p ++ [t.dnameOf]) t ++ walkList p rest
end

/-- What `os.walk` yields for a stored root path against the live
filesystem: the full walk when the path is a directory, and nothing at all
otherwise (`os.walk` swallows the error for a missing path). -/
def liveWalk (fs : FS) (r : FPath) : List (FPath × List FSFile) :=
  match dlookup fs r with
  | some t => walk r t
  | none => []

/-! ## The scan operation (`fileseeker.py`, lines 21-48)

Maps follow the data model of the spec: a `FileMap` maps filenames to
stored values (hex hashes after `scan`, classification tokens after
`detect`), a `DirectoryMap` maps directory paths to FileMaps, and a
`Snapshot` maps root paths to DirectoryMaps. -/

abbrev FileMap := List (String × String)

abbrev DirectoryMap := List (FPath × FileMap)

abbrev Snapshot := List (FPath × DirectoryMap)

/-- Instance search does not chase equality decidability through this
nesting depth on its own; the standard list instance applies directly. -/
instance : DecidableEq Snapshot := instDecidableEqList

instance : DecidableEq (Option Snapshot) := inferInstance

/-- The per-file expression
`hashlib.sha256(f.read().encode("utf-8")).hexdigest()` for a text-mode
`open`: `none` when the open or the UTF-8 decode raises, otherwise the hex
digest of the re-encoded, newline-translated text. -/
def string_hash (f : FSFile) : Option String :=
  if f.readable then
    (utf8Decode f.content).map (fun cs => sha256hex (utf8Encode (nlTranslate cs)))
  else none

/-- The inner loop of `scan` over the filenames of one directory: hash each
file into the directory dict; a raised exception aborts everything. -/
def scanFiles (acc : FileMap) : List FSFile → Option FileMap
  | [] => some acc
  | f :: rest =>
    match string_hash f with
    | none => none
    | some h => scanFiles (dinsert acc f.fname h) rest

/-- The `os.walk` loop of `scan` over one root: an empty dict per visited
directory, filled by `scanFiles`. -/
def scanWalk (acc : DirectoryMap) : List (FPath × List FSFile) → Option DirectoryMap
  | [] => some acc
  | (dp, files) :: rest =>
    match scanFiles [] files with
    | none => none
    | some fm => scanWalk (dinsert acc dp fm) rest

/-- The root loop of `scan`: skip roots that are not directories, walk the
others.  Any exception propagates and aborts the whole scan. -/
def scanRoots (fs : FS) (acc : Snapshot) : List FPath → Option Snapshot
  | [] => some acc
  | d :: rest =>
    match dlookup fs d with
    | none => scanRoots fs acc rest
    | some t =>
      match scanWalk [] (walk d t) with
      | none => none
      | some dm => scanRoots fs (dinsert acc d dm) rest

/-- `scan(directories, result_fp)`: `some snapshot` means the snapshot
artifact is written with that content; `none` means an uncaught exception
aborted the scan and no artifact was written. -/
def scan (fs : FS) (directories : List FPath) : Option Snapshot :=
  scanRoots fs [] directories

/-- The error diagnostics emitted by the root loop of `scan` (lines 27-30):
one `logging.error` record naming each input path that is not a directory.
Each record is a pair of the logging level name and the message. -/
def scanRootLog (fs : FS) : List FPath → List (String × String)
  | [] => []
  | d :: rest =>
    match dlookup fs d with
    | none =>
      ("ERROR", "Input directory " ++ String.intercalate "/" d ++ " is invalid") ::
        scanRootLog fs rest
    | some _ => scanRootLog fs rest

/-! ## The detect operation (`fileseeker.py`, lines 50-128) -/

/-- First loop of `detect_files`: classify each live filename of a known
directory against the stored FileMap, writing the token into the copied
map.  A failed read of a file that is present in both raises, modelled as
`none`. -/
def detectLive (stored : FileMap) (acc : FileMap) : List FSFile → Option FileMap
  | [] => some acc
  | f :: rest =>
    match dlookup stored f.fname with
    | some storedHash =>
      match string_hash f with
      | none => none
      | some h =>
        detectLive stored
          (dinsert acc f.fname (if h = storedHash then "UNMODIFIED" else "MODIFIED")) rest
    | none => detectLive stored (dinsert acc f.fname "ADDED") rest

/-- Second loop of `detect_files`: every stored filename that is not among
the live filenames is marked `DELETED`. -/
def markDeleted (liveNames : List String) (acc : FileMap) : FileMap → FileMap
  | [] => acc
  | (fn, _) :: rest =>
    if lmem fn liveNames then markDeleted liveNames acc rest
    else markDeleted liveNames (dinsert acc fn "DELETED") rest

/-- `detect_files(filenames, directory, scan_result_copy, ...)` for one
known directory: `stored` is the FileMap from the snapshot, `init` the
current value of the copied map for this directory. -/
def detect_files (stored : FileMap) (files : List FSFile) (init : FileMap) :
    Option FileMap :=
  match detectLive stored init files with
  | none => none
  | some m => some (markDeleted (files.map FSFile.fname) m stored)

/-- The added-directory branch of `detect` (lines 111-115): a fresh dict
mapping every live filename to `ADDED`. -/
def addedFiles (acc : FileMap) : List FSFile → FileMap
  | [] => acc
  | f :: rest => addedFiles (dinsert acc f.fname "ADDED") rest

/-- The deleted-directory branch of `detect` (lines 120-122): every stored
filename overwritten with `DELETED` in the copied map for that directory. -/
def markAllDeleted (cur : FileMap) : FileMap → FileMap
  | [] => cur
  | (fn, _) :: rest => markAllDeleted (dinsert cur fn "DELETED") rest

/-- The `os.walk` loop of `detect` over one root (lines 102-115), keeping
the list of directory paths seen so far (`dirpaths_current`).  A missing
key in the copied map is a `KeyError`, modelled as `none`. -/
def detectDirs (stored : DirectoryMap) (acc : DirectoryMap) (seen : List FPath) :
    List (FPath × List FSFile) → Option (DirectoryMap × List FPath)
  | [] => some (acc, seen)
  | (dp, files) :: rest =>
    match dlookup stored dp with
    | some fm =>
      match dlookup acc dp with
      | none => none
      | some cur =>
        match detect_files fm files cur with
        | none => none
        | some m => detectDirs stored (dinsert acc dp m) (seen ++ [dp]) rest
    | none =>
      detectDirs stored (dinsert acc dp (addedFiles [] files)) (seen ++ [dp]) rest

/-- The deleted-directory loop of `detect` (lines 118-123): every stored
directory path missing from the fresh walk has all its stored files marked
`DELETED`. -/
def deletedDirs (seen : List FPath) (acc : DirectoryMap) : DirectoryMap → Option DirectoryMap
  | [] => some acc
  | (dp, fm) :: rest =>
    if lmem dp seen then deletedDirs seen acc rest
    else
      match dlookup acc dp with
      | none => none
      | some cur => deletedDirs seen (dinsert acc dp (markAllDeleted cur fm)) rest

/-- Processing of one snapshot root inside `detect`: walk the live state of
the stored root path, then sweep the stored directories for deletions. -/
def detectRoot (fs : FS) (r : FPath) (stored : DirectoryMap) : Option DirectoryMap :=
  match detectDirs stored stored [] (liveWalk fs r) with
  | none => none
  | some (acc, seen) => deletedDirs seen acc stored

/-- The root loop of `detect` over the items of the loaded snapshot,
updating the deep copy `scan_result_copy` root by root. -/
def detectRoots (fs : FS) (acc : Snapshot) : Snapshot → Option Snapshot
  | [] => some acc
  | (r, stored) :: rest =>
    match detectRoot fs r stored with
    | none => none
    | some dm => detectRoots fs (dinsert acc r dm) rest

/-- `detect(scan_result_fp, result_fp)`: the input is `none` when the
snapshot artifact is missing or cannot be parsed, in which case no output
is produced; otherwise the loaded snapshot is diffed against the live
filesystem.  `some result` means the DiffResult artifact is written with
that content; `none` means nothing is written. -/
def detect (fs : FS) (input : Option Snapshot) : Option Snapshot :=
  match input with
  | none => none
  | some snap => detectRoots fs snap snap

/-! ## Well-formedness of a live tree

A walk of a real directory tree never repeats a directory path, and a real
directory never lists the same filename twice.  These facts are not
derivable inside the model (an `FSTree` value may repeat names), so they
appear as explicit hypotheses stated with this predicate. -/

/-- The walk of a real tree: directory paths are pairwise distinct and the
filenames within each directory are pairwise distinct. -/
def wfWalk (ws : List (FPath × List FSFile)) : Bool :=
  lnodup (ws.map Prod.fst) && ws.all (fun e => lnodup (e.2.map FSFile.fname))

/-- Remove later duplicates from a list of root paths, keeping the first
occurrence of each (`seen` holds the paths already kept). -/
def dedupRoots (seen : List FPath) : List FPath → List FPath
  | [] => []
  | r :: rest =>
    if lmem r seen then dedupRoots seen rest
    else r :: dedupRoots (seen ++ [r]) rest

/-! ## Observation helpers and concrete fixtures

`storedHash` reads one leaf of a written artifact; `detectReadsOk` is the
decidable condition that every live-file read attempted by `detect`
succeeds.  The `fsW...`/`snapW...` values are small concrete filesystems
and artifacts used to instantiate the theorems below. -/

/-- The stored value for one filename in an optional artifact: the root
entry, then the directory entry, then the file entry. -/
def storedHash (s : Option Snapshot) (r dp : FPath) (fn : String) : Option String :=
  match s with
  | none => none
  | some snap =>
    match dlookup snap r with
    | none => none
    | some dm =>
      match dlookup dm dp with
      | none => none
      | some fm => dlookup fm fn

/-- Decidable success condition for `detect`: every file that the fresh
walk finds in a known directory and that also has a stored entry can be
read and decoded (those are exactly the reads `detect_files` performs). -/
def detectReadsOk (fs : FS) (snap : Snapshot) : Bool :=
  snap.all fun e =>
    (liveWalk fs e.1).all fun w =>
      w.2.all fun f =>
        match dlookup e.2 w.1 with
        | some fm => !(dlookup fm f.fname).isSome || (string_hash f).isSome
        | none => true

def treeW1 : FSTree :=
  .dir "root1" [⟨"a.txt", [104, 105], true⟩] [.dir "sub" [] []]

def fsW1 : FS := [(["root1"], treeW1)]

def snapW1 : Snapshot :=
  [(["root1"],
    [(["root1"],
      [("a.txt", "8f434346648f6b96df89dda901c5176b10a6d83961dd3c1ac88b59b2dc327aa4")]),
     (["root1", "sub"], [])])]

def filesW2 : List FSFile := [⟨"new", [110], true⟩]

def fsW2 : FS := [(["r2"], FSTree.dir "r2" filesW2 [])]

def fmW2 : FileMap := [("gone", "h0")]

def dmW2 : DirectoryMap := [(["r2"], fmW2)]

def snapW2 : Snapshot := [(["r2"], dmW2)]

def resW2 : Snapshot := [(["r2"], [(["r2"], [("gone", "DELETED"), ("new", "ADDED")])])]

def filesW3 : List FSFile := [⟨"n", [110], true⟩]

def fsW3 : FS := [(["r3"], FSTree.dir "r3" [] [FSTree.dir "new" filesW3 []])]

def dmW3 : DirectoryMap := [(["r3"], []), (["r3", "old"], [("g", "h1")])]

def snapW3 : Snapshot := [(["r3"], dmW3)]

def resW3 : Snapshot :=
  [(["r3"],
    [(["r3"], []), (["r3", "old"], [("g", "DELETED")]),
     (["r3", "new"], [("n", "ADDED")])])]

def fsC4 : FS :=
  [(["c4"],
    FSTree.dir "c4" [⟨"crlf.txt", [97, 13, 10], true⟩, ⟨"lf.txt", [97, 10], true⟩] [])]

def fileW4 : FSFile := ⟨"empty.txt", [], true⟩

def filesW4 : List FSFile := [fileW4]

def treeW4 : FSTree := .dir "w4" filesW4 []

def fsW4 : FS := [(["w4"], treeW4)]

def snapW4 : Snapshot :=
  [(["w4"],
    [(["w4"],
      [("empty.txt", "e3b0c44298fc1c149afbf4c8996fb92427ae41e4649b934ca495991b7852b855")])])]

def fsC5 : FS :=
  [(["c5"], FSTree.dir "c5" [⟨"locked.txt", [0], false⟩, ⟨"ok.txt", [104], true⟩] [])]

def fileW5 : FSFile := ⟨"locked5", [104], false⟩

def filesW5 : List FSFile := [fileW5]

def treeW5 : FSTree := .dir "w5" filesW5 []

def fsW5 : FS := [(["w5"], treeW5)]

def fsC6 : FS := [(["c6"], FSTree.dir "c6" [⟨"f.txt", [104], false⟩] [])]

def snapC6 : Snapshot := [(["c6"], [(["c6"], [("f.txt", "aaaa")])])]

def fsW6 : FS := [(["w6"], FSTree.dir "w6" [] [])]

def snapW6 : Snapshot := [(["w6"], [(["w6"], [])])]

def fsC7 : FS :=
  [(["okroot"], FSTree.dir "okroot" [⟨"a", [104], true⟩] []),
   (["badroot"], FSTree.dir "badroot" [⟨"b", [104], false⟩] [])]

def snapC7 : Snapshot :=
  [(["okroot"], [(["okroot"], [("a", "stale1")])]),
   (["badroot"], [(["badroot"], [("b", "stale2")])])]

def fileW7 : FSFile := ⟨"g", [104], false⟩

def filesW7 : List FSFile := [fileW7]

def treeW7 : FSTree := .dir "w7" filesW7 []

def fsW7 : FS := [(["w7"], treeW7)]

def fmW7 : FileMap := [("g", "h2")]

def dmW7 : DirectoryMap := [(["w7"], fmW7)]

def snapW7 : Snapshot := [(["w7"], dmW7)]

def treeW8 : FSTree := .dir "r8" [] [.dir "emptysub" [] []]

def fsW8 : FS := [(["r8"], treeW8)]

def dmW8 : DirectoryMap := [(["r8"], []), (["r8", "emptysub"], [])]

def snapW8 : Snapshot := [(["r8"], dmW8)]

def fsW9 : FS := [(["ok9"], FSTree.dir "ok9" [] [])]

def fsW10 : FS := [(["r10"], FSTree.dir "r10" [] [])]

def snapW10 : Snapshot := [(["r10"], [(["r10"], [])])]

/-! ## Lemmas about the association list operations -/

theorem lmem_iff {α : Type} [DecidableEq α] {x : α} {l : List α} :
    lmem x l = true ↔ x ∈ l := by
  induction l with
  | nil => simp [lmem]
  | cons y rest ih =>
    by_cases h : x = y <;> simp [lmem, h, ih]

theorem lmem_eq_false {α : Type} [DecidableEq α] {x : α} {l : List α} :
    lmem x l = false ↔ x ∉ l := by
  rw [← Bool.not_eq_true, lmem_iff]

theorem dlookup_dinsert_self {α β : Type} [DecidableEq α]
    (m : List (α × β)) (k : α) (v : β) :
    dlookup (dinsert m k v) k = some v := by
  induction m with
  | nil => simp [dinsert, dlookup]
  | cons kv rest ih =>
    obtain ⟨k0, v0⟩ := kv
    by_cases h : k = k0 <;> simp [dinsert, dlookup, h, ih]

theorem dlookup_dinsert_ne {α β : Type} [DecidableEq α]
    {m : List (α × β)} {k x : α} (v : β) (hx : x ≠ k) :
    dlookup (dinsert m k v) x = dlookup m x := by
  induction m with
  | nil => simp [dinsert, dlookup, hx]
  | cons kv rest ih =>
    obtain ⟨k0, v0⟩ := kv
    by_cases h : k = k0
    · subst h
      simp [dinsert, dlookup, if_neg (by exact fun hh => hx hh)]
    · by_cases h2 : x = k0 <;> simp [dinsert, dlookup, h, h2, ih]

theorem mem_dinsert {α β : Type} [DecidableEq α]
    {kv : α × β} {m : List (α × β)} {k : α} {v : β}
    (h : kv ∈ dinsert m k v) : kv = (k, v) ∨ kv ∈ m := by
  induction m with
  | nil => simpa [dinsert] using h
  | cons kv0 rest ih =>
    obtain ⟨k0, v0⟩ := kv0
    by_cases hk : k = k0
    · subst hk
      simp only [dinsert, if_pos rfl] at h
      rcases List.mem_cons.mp h with h | h
      · left; simpa using h
      · right; exact List.mem_cons_of_mem _ h
    · simp only [dinsert, if_neg hk] at h
      rcases List.mem_cons.mp h with h | h
      · right; exact h ▸ List.mem_cons_self _ _
      · rcases ih h with h | h
        · left; exact h
        · right; exact List.mem_cons_of_mem _ h

theorem keys_dinsert {α β : Type} [DecidableEq α]
    (m : List (α × β)) (k x : α) (v : β) :
    x ∈ (dinsert m k v).map Prod.fst ↔ x ∈ m.map Prod.fst ∨ x = k := by
  induction m with
  | nil => simp [dinsert]
  | cons kv rest ih =>
    obtain ⟨k0, v0⟩ := kv
    by_cases h : k = k0
    · subst h
      simp [dinsert]
      tauto
    · simp only [dinsert, if_neg h, List.map_cons, List.mem_cons]
      rw [ih]
      tauto

theorem lnodup_iff {α : Type} [DecidableEq α] {l : List α} :
    lnodup l = true ↔ l.Nodup := by
  induction l with
  | nil => simp [lnodup]
  | cons y rest ih =>
    simp [lnodup, List.nodup_cons, lmem_eq_false, ih, Bool.and_eq_true,
      Bool.not_eq_true']

theorem dlookup_isSome_dinsert {α β : Type} [DecidableEq α]
    {m : List (α × β)} {x : α} (k : α) (v : β)
    (h : (dlookup m x).isSome = true) :
    (dlookup (dinsert m k v) x).isSome = true := by
  by_cases hx : x = k
  · subst hx; simp [dlookup_dinsert_self]
  · rwa [dlookup_dinsert_ne v hx]

theorem nodup_keys_dinsert {α β : Type} [DecidableEq α]
    {m : List (α × β)} (k : α) (v : β)
    (h : (m.map Prod.fst).Nodup) :
    ((dinsert m k v).map Prod.fst).Nodup := by
  induction m with
  | nil => simp [dinsert]
  | cons kv rest ih =>
    obtain ⟨k0, v0⟩ := kv
    simp only [List.map_cons, List.nodup_cons] at h
    by_cases hk : k = k0
    · subst hk
      simpa [dinsert, List.nodup_cons] using h
    · simp only [dinsert, if_neg hk, List.map_cons, List.nodup_cons]
      refine ⟨fun hc => ?_, ih h.2⟩
      rcases (keys_dinsert rest k k0 v).mp hc with hc | hc
      · exact h.1 hc
      · exact hk hc.symm

theorem dlookup_mem {α β : Type} [DecidableEq α]
    {m : List (α × β)} {k : α} {v : β}
    (h : dlookup m k = some v) : (k, v) ∈ m := by
  induction m with
  | nil => simp [dlookup] at h
  | cons kv rest ih =>
    obtain ⟨k0, v0⟩ := kv
    by_cases hk : k = k0
    · subst hk
      simp [dlookup] at h
      simp [h]
    · simp only [dlookup, if_neg hk] at h
      exact List.mem_cons_of_mem _ (ih h)

theorem mem_dlookup_nodup {α β : Type} [DecidableEq α]
    {m : List (α × β)} {k : α} {v : β}
    (hn : (m.map Prod.fst).Nodup) (h : (k, v) ∈ m) :
    dlookup m k = some v := by
  induction m with
  | nil => simp at h
  | cons kv rest ih =>
    obtain ⟨k0, v0⟩ := kv
    simp only [List.map_cons, List.nodup_cons] at hn
    by_cases hk : k = k0
    · subst hk
      rcases List.mem_cons.mp h with h | h
      · injection h with h1 h2
        subst h2
        simp [dlookup]
      · have hmem : k ∈ rest.map Prod.fst := List.mem_map.mpr ⟨(k, v), h, rfl⟩
        exact absurd hmem hn.1
    · simp only [dlookup, if_neg hk]
      rcases List.mem_cons.mp h with h | h
      · exact absurd (congrArg Prod.fst h) hk
      · exact ih hn.2 h

theorem dlookup_isSome_iff {α β : Type} [DecidableEq α]
    {m : List (α × β)} {x : α} :
    (dlookup m x).isSome = true ↔ x ∈ m.map Prod.fst := by
  induction m with
  | nil => simp [dlookup]
  | cons kv rest ih =>
    obtain ⟨k0, v0⟩ := kv
    by_cases hk : x = k0 <;> simp [dlookup, hk, ih]

theorem dinsert_eq_of_dlookup {α β : Type} [DecidableEq α]
    {m : List (α × β)} {k : α} {v : β}
    (h : dlookup m k = some v) : dinsert m k v = m := by
  induction m with
  | nil => simp [dlookup] at h
  | cons kv rest ih =>
    obtain ⟨k0, v0⟩ := kv
    by_cases hk : k = k0
    · subst hk
      simp [dlookup] at h
      simp [dinsert, h]
    · simp only [dlookup, if_neg hk] at h
      simp [dinsert, hk, ih h]

theorem mem_dinsert_nodup {α β : Type} [DecidableEq α]
    {kv : α × β} {m : List (α × β)} {k : α} {v : β}
    (hn : (m.map Prod.fst).Nodup) (h : kv ∈ dinsert m k v) :
    kv = (k, v) ∨ (kv ∈ m ∧ kv.1 ≠ k) := by
  by_cases hk : kv.1 = k
  · left
    have h1 : dlookup (dinsert m k v) kv.1 = some kv.2 :=
      mem_dlookup_nodup (nodup_keys_dinsert k v hn) h
    rw [hk, dlookup_dinsert_self] at h1
    obtain ⟨a, b⟩ := kv
    simp only at hk h1
    simp [hk, Option.some.inj h1]
  · rcases mem_dinsert h with h | h
    · exact absurd (congrArg Prod.fst h) hk
    · exact Or.inr ⟨h, hk⟩

/-! ## Lemmas about `scan` -/

theorem scanFiles_fail {files : List FSFile} {f : FSFile} (hf : f ∈ files)
    (hh : string_hash f = none) : ∀ acc, scanFiles acc files = none := by
  induction files with
  | nil => simp at hf
  | cons g rest ih =>
    intro acc
    rcases List.mem_cons.mp hf with hf | hf
    · subst hf
      simp [scanFiles, hh]
    · cases hsh : string_hash g with
      | none => simp [scanFiles, hsh]
      | some hv => simp [scanFiles, hsh, ih hf]

theorem scanFiles_frame {files : List FSFile} {fn : String}
    (hf : fn ∉ files.map FSFile.fname) :
    ∀ {acc fm}, scanFiles acc files = some fm → dlookup fm fn = dlookup acc fn := by
  induction files with
  | nil =>
    intro acc fm h
    simp [scanFiles] at h
    simp [h]
  | cons g rest ih =>
    intro acc fm h
    simp only [List.map_cons, List.mem_cons, not_or] at hf
    cases hsh : string_hash g with
    | none => simp [scanFiles, hsh] at h
    | some hv =>
      simp only [scanFiles, hsh] at h
      rw [ih hf.2 h, dlookup_dinsert_ne hv hf.1]

theorem scanFiles_lookup {files : List FSFile} {f : FSFile}
    (hn : (files.map FSFile.fname).Nodup) (hf : f ∈ files) :
    ∀ {acc fm}, scanFiles acc files = some fm →
      ∃ h, string_hash f = some h ∧ dlookup fm f.fname = some h := by
  induction files with
  | nil => simp at hf
  | cons g rest ih =>
    intro acc fm h
    simp only [List.map_cons, List.nodup_cons] at hn
    cases hsh : string_hash g with
    | none => simp [scanFiles, hsh] at h
    | some hv =>
      simp only [scanFiles, hsh] at h
      rcases List.mem_cons.mp hf with hf | hf
      · subst hf
        refine ⟨hv, hsh, ?_⟩
        rw [scanFiles_frame hn.1 h, dlookup_dinsert_self]
      · exact ih hn.2 hf h

theorem scanFiles_keys {files : List FSFile} {x : String} :
    ∀ {acc fm}, scanFiles acc files = some fm →
      (x ∈ fm.map Prod.fst ↔ x ∈ acc.map Prod.fst ∨ x ∈ files.map FSFile.fname) := by
  induction files with
  | nil =>
    intro acc fm h
    simp [scanFiles] at h
    simp [h]
  | cons g rest ih =>
    intro acc fm h
    cases hsh : string_hash g with
    | none => simp [scanFiles, hsh] at h
    | some hv =>
      simp only [scanFiles, hsh] at h
      rw [ih h, keys_dinsert]
      simp only [List.map_cons, List.mem_cons]
      tauto

theorem scanFiles_nodup_keys {files : List FSFile} :
    ∀ {acc fm}, scanFiles acc files = some fm →
      (acc.map Prod.fst).Nodup → (fm.map Prod.fst).Nodup := by
  induction files with
  | nil =>
    intro acc fm h
    simp [scanFiles] at h
    simp [h]
  | cons g rest ih =>
    intro acc fm h hn
    cases hsh : string_hash g with
    | none => simp [scanFiles, hsh] at h
    | some hv =>
      simp only [scanFiles, hsh] at h
      exact ih h (nodup_keys_dinsert _ _ hn)

theorem scanWalk_fail {ws : List (FPath × List FSFile)} {dp : FPath}
    {files : List FSFile} (hw : (dp, files) ∈ ws)
    (hh : scanFiles [] files = none) : ∀ acc, scanWalk acc ws = none := by
  induction ws with
  | nil => simp at hw
  | cons e rest ih =>
    intro acc
    obtain ⟨dp0, files0⟩ := e
    rcases List.mem_cons.mp hw with hw | hw
    · injection hw with h1 h2
      subst h2
      simp [scanWalk, hh]
    · cases hsf : scanFiles ([] : FileMap) files0 with
      | none => simp [scanWalk, hsf]
      | some fm => simp [scanWalk, hsf, ih hw]

theorem scanWalk_frame {ws : List (FPath × List FSFile)} {dp : FPath}
    (hf : dp ∉ ws.map Prod.fst) :
    ∀ {acc dm}, scanWalk acc ws = some dm → dlookup dm dp = dlookup acc dp := by
  induction ws with
  | nil =>
    intro acc dm h
    simp [scanWalk] at h
    simp [h]
  | cons e rest ih =>
    intro acc dm h
    obtain ⟨dp0, files0⟩ := e
    simp only [List.map_cons, List.mem_cons, not_or] at hf
    cases hsf : scanFiles ([] : FileMap) files0 with
    | none => simp [scanWalk, hsf] at h
    | some fm =>
      simp only [scanWalk, hsf] at h
      rw [ih hf.2 h, dlookup_dinsert_ne fm hf.1]

theorem scanWalk_lookup {ws : List (FPath × List FSFile)} {dp : FPath}
    {files : List FSFile} (hn : (ws.map Prod.fst).Nodup) (hw : (dp, files) ∈ ws) :
    ∀ {acc dm}, scanWalk acc ws = some dm →
      ∃ fm, scanFiles [] files = some fm ∧ dlookup dm dp = some fm := by
  induction ws with
  | nil => simp at hw
  | cons e rest ih =>
    intro acc dm h
    obtain ⟨dp0, files0⟩ := e
    simp only [List.map_cons, List.nodup_cons] at hn
    cases hsf : scanFiles ([] : FileMap) files0 with
    | none => simp [scanWalk, hsf] at h
    | some fm =>
      simp only [scanWalk, hsf] at h
      rcases List.mem_cons.mp hw with hw | hw
      · injection hw with h1 h2
        subst h1; subst h2
        refine ⟨fm, hsf, ?_⟩
        rw [scanWalk_frame hn.1 h, dlookup_dinsert_self]
      · exact ih hn.2 hw h

theorem scanWalk_keys {ws : List (FPath × List FSFile)} {x : FPath} :
    ∀ {acc dm}, scanWalk acc ws = some dm →
      (x ∈ dm.map Prod.fst ↔ x ∈ acc.map Prod.fst ∨ x ∈ ws.map Prod.fst) := by
  induction ws with
  | nil =>
    intro acc dm h
    simp [scanWalk] at h
    simp [h]
  | cons e rest ih =>
    intro acc dm h
    obtain ⟨dp0, files0⟩ := e
    cases hsf : scanFiles ([] : FileMap) files0 with
    | none => simp [scanWalk, hsf] at h
    | some fm =>
      simp only [scanWalk, hsf] at h
      rw [ih h, keys_dinsert]
      simp only [List.map_cons, List.mem_cons]
      tauto

theorem scanWalk_nodup_keys {ws : List (FPath × List FSFile)} :
    ∀ {acc dm}, scanWalk acc ws = some dm →
      (acc.map Prod.fst).Nodup → (dm.map Prod.fst).Nodup := by
  induction ws with
  | nil =>
    intro acc dm h
    simp [scanWalk] at h
    simp [h]
  | cons e rest ih =>
    intro acc dm h hn
    obtain ⟨dp0, files0⟩ := e
    cases hsf : scanFiles ([] : FileMap) files0 with
    | none => simp [scanWalk, hsf] at h
    | some fm =>
      simp only [scanWalk, hsf] at h
      exact ih h (nodup_keys_dinsert _ _ hn)

theorem scanRoots_fail {fs : FS} {roots : List FPath} {r : FPath} {t : FSTree}
    (hr : r ∈ roots) (ht : dlookup fs r = some t)
    (hw : scanWalk [] (walk r t) = none) :
    ∀ acc, scanRoots fs acc roots = none := by
  induction roots with
  | nil => simp at hr
  | cons d rest ih =>
    intro acc
    rcases List.mem_cons.mp hr with hr | hr
    · subst hr
      simp [scanRoots, ht, hw]
    · cases hl : dlookup fs d with
      | none => simp [scanRoots, hl, ih hr]
      | some t0 =>
        cases hsw : scanWalk ([] : DirectoryMap) (walk d t0) with
        | none => simp [scanRoots, hl, hsw]
        | some dm => simp [scanRoots, hl, hsw, ih hr]

theorem scanRoots_entries {fs : FS} {roots : List FPath} {r : FPath}
    {dm : DirectoryMap} :
    ∀ {acc snap}, scanRoots fs acc roots = some snap → (r, dm) ∈ snap →
      (r, dm) ∈ acc ∨
        ∃ t, dlookup fs r = some t ∧ scanWalk [] (walk r t) = some dm := by
  induction roots with
  | nil =>
    intro acc snap h hm
    simp [scanRoots] at h
    exact Or.inl (h ▸ hm)
  | cons d rest ih =>
    intro acc snap h hm
    cases hl : dlookup fs d with
    | none =>
      simp only [scanRoots, hl] at h
      exact ih h hm
    | some t0 =>
      cases hsw : scanWalk ([] : DirectoryMap) (walk d t0) with
      | none => simp [scanRoots, hl, hsw] at h
      | some dm0 =>
        simp only [scanRoots, hl, hsw] at h
        rcases ih h hm with hin | hin
        · rcases mem_dinsert hin with hin | hin
          · injection hin with h1 h2
            subst h1; subst h2
            exact Or.inr ⟨t0, hl, hsw⟩
          · exact Or.inl hin
        · exact Or.inr hin

theorem scanRoots_nodup_keys {fs : FS} {roots : List FPath} :
    ∀ {acc snap}, scanRoots fs acc roots = some snap →
      (acc.map Prod.fst).Nodup → (snap.map Prod.fst).Nodup := by
  induction roots with
  | nil =>
    intro acc snap h
    simp [scanRoots] at h
    simp [h]
  | cons d rest ih =>
    intro acc snap h hn
    cases hl : dlookup fs d with
    | none =>
      simp only [scanRoots, hl] at h
      exact ih h hn
    | some t0 =>
      cases hsw : scanWalk ([] : DirectoryMap) (walk d t0) with
      | none => simp [scanRoots, hl, hsw] at h
      | some dm0 =>
        simp only [scanRoots, hl, hsw] at h
        exact ih h (nodup_keys_dinsert _ _ hn)

theorem scanRoots_skip {fs : FS} {r : FPath} (hr : dlookup fs r = none)
    (pre post : List FPath) :
    ∀ acc, scanRoots fs acc (pre ++ r :: post) = scanRoots fs acc (pre ++ post) := by
  induction pre with
  | nil =>
    intro acc
    simp [scanRoots, hr]
  | cons d rest ih =>
    intro acc
    cases hl : dlookup fs d with
    | none => simp [scanRoots, hl, ih]
    | some t0 =>
      cases hsw : scanWalk ([] : DirectoryMap) (walk d t0) with
      | none => simp [scanRoots, hl, hsw]
      | some dm0 => simp [scanRoots, hl, hsw, ih]

theorem scanRoots_dedup (fs : FS) :
    ∀ (roots : List FPath) (acc : Snapshot) (seen : List FPath),
      (∀ s ∈ seen, dlookup fs s = none ∨
        ∃ t dm, dlookup fs s = some t ∧ scanWalk [] (walk s t) = some dm ∧
          dlookup acc s = some dm) →
      scanRoots fs acc roots = scanRoots fs acc (dedupRoots seen roots) := by
  intro roots
  induction roots with
  | nil => intro acc seen _; rfl
  | cons r rest ih =>
    intro acc seen hinv
    by_cases hs : lmem r seen
    · rcases hinv r (lmem_iff.mp hs) with hr | ⟨t, dm, ht, hw, hacc⟩
      · simp only [dedupRoots, if_pos hs]
        rw [show scanRoots fs acc (r :: rest) = scanRoots fs acc rest from by
          simp [scanRoots, hr]]
        exact ih acc seen hinv
      · simp only [dedupRoots, if_pos hs]
        rw [show scanRoots fs acc (r :: rest) = scanRoots fs (dinsert acc r dm) rest from by
          simp [scanRoots, ht, hw]]
        rw [dinsert_eq_of_dlookup hacc]
        exact ih acc seen hinv
    · simp only [dedupRoots, if_neg hs]
      cases hl : dlookup fs r with
      | none =>
        rw [show scanRoots fs acc (r :: rest) = scanRoots fs acc rest from by
              simp [scanRoots, hl],
            show scanRoots fs acc (r :: dedupRoots (seen ++ [r]) rest) =
              scanRoots fs acc (dedupRoots (seen ++ [r]) rest) from by
              simp [scanRoots, hl]]
        refine ih acc (seen ++ [r]) ?_
        intro s hsm
        rcases List.mem_append.mp hsm with hsm | hsm
        · exact hinv s hsm
        · simp at hsm
          subst hsm
          exact Or.inl hl
      | some t0 =>
        cases hsw : scanWalk ([] : DirectoryMap) (walk r t0) with
        | none =>
          rw [show scanRoots fs acc (r :: rest) = none from by simp [scanRoots, hl, hsw],
              show scanRoots fs acc (r :: dedupRoots (seen ++ [r]) rest) = none from by
                simp [scanRoots, hl, hsw]]
        | some dm0 =>
          rw [show scanRoots fs acc (r :: rest) =
                scanRoots fs (dinsert acc r dm0) rest from by simp [scanRoots, hl, hsw],
              show scanRoots fs acc (r :: dedupRoots (seen ++ [r]) rest) =
                scanRoots fs (dinsert acc r dm0) (dedupRoots (seen ++ [r]) rest) from by
                simp [scanRoots, hl, hsw]]
          refine ih (dinsert acc r dm0) (seen ++ [r]) ?_
          intro s hsm
          rcases List.mem_append.mp hsm with hsm | hsm
          · rcases hinv s hsm with hr | ⟨t, dm, ht, hw, hacc⟩
            · exact Or.inl hr
            · refine Or.inr ⟨t, dm, ht, hw, ?_⟩
              have hne : s ≠ r := fun he => hs (he ▸ lmem_iff.mpr (he ▸ hsm))
              rwa [dlookup_dinsert_ne dm0 hne]
          · simp at hsm
            subst hsm
            exact Or.inr ⟨t0, dm0, hl, hsw, dlookup_dinsert_self _ _ _⟩

/-! ## Lemmas about `detect_files` -/

theorem detectLive_fail {stored : FileMap} {files : List FSFile} {f : FSFile}
    (hf : f ∈ files) (hs : (dlookup stored f.fname).isSome = true)
    (hh : string_hash f = none) :
    ∀ acc, detectLive stored acc files = none := by
  induction files with
  | nil => simp at hf
  | cons g rest ih =>
    intro acc
    rcases List.mem_cons.mp hf with hf | hf
    · subst hf
      rcases Option.isSome_iff_exists.mp hs with ⟨sh, hsh⟩
      simp [detectLive, hsh, hh]
    · cases hl : dlookup stored g.fname with
      | none => simp [detectLive, hl, ih hf]
      | some sh =>
        cases hg : string_hash g with
        | none => simp [detectLive, hl, hg]
        | some hv => simp [detectLive, hl, hg, ih hf]

theorem detectLive_frame {stored : FileMap} {files : List FSFile} {fn : String}
    (hf : fn ∉ files.map FSFile.fname) :
    ∀ {acc m}, detectLive stored acc files = some m → dlookup m fn = dlookup acc fn := by
  induction files with
  | nil =>
    intro acc m h
    simp [detectLive] at h
    simp [h]
  | cons g rest ih =>
    intro acc m h
    simp only [List.map_cons, List.mem_cons, not_or] at hf
    cases hl : dlookup stored g.fname with
    | none =>
      simp only [detectLive, hl] at h
      rw [ih hf.2 h, dlookup_dinsert_ne _ hf.1]
    | some sh =>
      cases hg : string_hash g with
      | none => simp [detectLive, hl, hg] at h
      | some hv =>
        simp only [detectLive, hl, hg] at h
        rw [ih hf.2 h, dlookup_dinsert_ne _ hf.1]

theorem detectLive_both {stored : FileMap} {files : List FSFile} {f : FSFile}
    {sh : String} (hn : (files.map FSFile.fname).Nodup) (hf : f ∈ files)
    (hl : dlookup stored f.fname = some sh) :
    ∀ {acc m}, detectLive stored acc files = some m →
      ∃ h, string_hash f = some h ∧
        dlookup m f.fname = some (if h = sh then "UNMODIFIED" else "MODIFIED") := by
  induction files with
  | nil => simp at hf
  | cons g rest ih =>
    intro acc m h
    simp only [List.map_cons, List.nodup_cons] at hn
    rcases List.mem_cons.mp hf with hf | hf
    · subst hf
      cases hg : string_hash f with
      | none => simp [detectLive, hl, hg] at h
      | some hv =>
        simp only [detectLive, hl, hg] at h
        refine ⟨hv, rfl, ?_⟩
        rw [detectLive_frame hn.1 h, dlookup_dinsert_self]
    · cases hl0 : dlookup stored g.fname with
      | none =>
        simp only [detectLive, hl0] at h
        exact ih hn.2 hf h
      | some sh0 =>
        cases hg : string_hash g with
        | none => simp [detectLive, hl0, hg] at h
        | some hv =>
          simp only [detectLive, hl0, hg] at h
          exact ih hn.2 hf h

theorem detectLive_added {stored : FileMap} {files : List FSFile} {f : FSFile}
    (hn : (files.map FSFile.fname).Nodup) (hf : f ∈ files)
    (hl : dlookup stored f.fname = none) :
    ∀ {acc m}, detectLive stored acc files = some m →
      dlookup m f.fname = some "ADDED" := by
  induction files with
  | nil => simp at hf
  | cons g rest ih =>
    intro acc m h
    simp only [List.map_cons, List.nodup_cons] at hn
    rcases List.mem_cons.mp hf with hf | hf
    · subst hf
      simp only [detectLive, hl] at h
      rw [detectLive_frame hn.1 h, dlookup_dinsert_self]
    · cases hl0 : dlookup stored g.fname with
      | none =>
        simp only [detectLive, hl0] at h
        exact ih hn.2 hf h
      | some sh0 =>
        cases hg : string_hash g with
        | none => simp [detectLive, hl0, hg] at h
        | some hv =>
          simp only [detectLive, hl0, hg] at h
          exact ih hn.2 hf h

theorem detectLive_success {stored : FileMap} {files : List FSFile}
    (hok : ∀ f ∈ files, (dlookup stored f.fname).isSome = true →
      (string_hash f).isSome = true) :
    ∀ acc, ∃ m, detectLive stored acc files = some m := by
  induction files with
  | nil => intro acc; exact ⟨acc, rfl⟩
  | cons g rest ih =>
    intro acc
    have hok' : ∀ f ∈ rest, (dlookup stored f.fname).isSome = true →
        (string_hash f).isSome = true :=
      fun f hf => hok f (List.mem_cons_of_mem _ hf)
    cases hl : dlookup stored g.fname with
    | none =>
      rcases ih hok' (dinsert acc g.fname "ADDED") with ⟨m, hm⟩
      exact ⟨m, by simp [detectLive, hl, hm]⟩
    | some sh =>
      have hg := hok g (List.mem_cons_self _ _) (by simp [hl])
      rcases Option.isSome_iff_exists.mp hg with ⟨hv, hhv⟩
      rcases ih hok'
          (dinsert acc g.fname (if hv = sh then "UNMODIFIED" else "MODIFIED")) with ⟨m, hm⟩
      exact ⟨m, by simp [detectLive, hl, hhv, hm]⟩

theorem markDeleted_frame {liveNames : List String} {fn : String}
    {st : FileMap} (h : lmem fn liveNames = true ∨ fn ∉ st.map Prod.fst) :
    ∀ acc, dlookup (markDeleted liveNames acc st) fn = dlookup acc fn := by
  induction st with
  | nil => intro acc; rfl
  | cons kv rest ih =>
    intro acc
    obtain ⟨k, v⟩ := kv
    simp only [List.map_cons, List.mem_cons, not_or] at h
    by_cases hk : lmem k liveNames
    · simp only [markDeleted, if_pos hk]
      exact ih (by tauto) acc
    · simp only [markDeleted, if_neg hk]
      have hne : fn ≠ k := by
        rcases h with h | h
        · intro he; subst he; exact hk h
        · exact h.1
      rw [ih (by tauto) (dinsert acc k "DELETED"), dlookup_dinsert_ne _ hne]

theorem markDeleted_deleted {liveNames : List String} {fn : String}
    {st : FileMap} (hmem : fn ∈ st.map Prod.fst) (hlive : lmem fn liveNames = false) :
    ∀ acc, dlookup (markDeleted liveNames acc st) fn = some "DELETED" := by
  induction st with
  | nil => simp at hmem
  | cons kv rest ih =>
    intro acc
    obtain ⟨k, v⟩ := kv
    simp only [List.map_cons, List.mem_cons] at hmem
    by_cases hk : lmem k liveNames
    · have hne : fn ≠ k := fun he => by
        rw [he, hk] at hlive
        exact Bool.noConfusion hlive
      simp only [markDeleted, if_pos hk]
      exact ih (hmem.resolve_left hne) acc
    · simp only [markDeleted, if_neg hk]
      by_cases hr : fn ∈ rest.map Prod.fst
      · exact ih hr _
      · have heq : fn = k := hmem.resolve_right hr
        subst heq
        rw [markDeleted_frame (Or.inr hr), dlookup_dinsert_self]

theorem markDeleted_noop {liveNames : List String} {st : FileMap}
    (h : ∀ kv ∈ st, lmem kv.1 liveNames = true) :
    ∀ acc, markDeleted liveNames acc st = acc := by
  induction st with
  | nil => intro acc; rfl
  | cons kv rest ih =>
    intro acc
    obtain ⟨k, v⟩ := kv
    have hk := h (k, v) (List.mem_cons_self _ _)
    simp only [markDeleted, if_pos hk]
    exact ih (fun kv2 h2 => h kv2 (List.mem_cons_of_mem _ h2)) acc

theorem df_fail {stored : FileMap} {files : List FSFile} {f : FSFile}
    (hf : f ∈ files) (hs : (dlookup stored f.fname).isSome = true)
    (hh : string_hash f = none) (init : FileMap) :
    detect_files stored files init = none := by
  simp [detect_files, detectLive_fail hf hs hh init]

theorem df_both {stored init : FileMap} {files : List FSFile} {f : FSFile}
    {sh : String} {m : FileMap} (hn : (files.map FSFile.fname).Nodup)
    (hf : f ∈ files) (hl : dlookup stored f.fname = some sh)
    (h : detect_files stored files init = some m) :
    ∃ hv, string_hash f = some hv ∧
      dlookup m f.fname = some (if hv = sh then "UNMODIFIED" else "MODIFIED") := by
  cases hdl : detectLive stored init files with
  | none => simp [detect_files, hdl] at h
  | some m0 =>
    simp only [detect_files, hdl, Option.some.injEq] at h
    rcases detectLive_both hn hf hl hdl with ⟨hv, hsh, hm0⟩
    refine ⟨hv, hsh, ?_⟩
    rw [← h, markDeleted_frame (Or.inl (lmem_iff.mpr (List.mem_map_of_mem _ hf))), hm0]

theorem df_added {stored init : FileMap} {files : List FSFile} {f : FSFile}
    {m : FileMap} (hn : (files.map FSFile.fname).Nodup)
    (hf : f ∈ files) (hl : dlookup stored f.fname = none)
    (h : detect_files stored files init = some m) :
    dlookup m f.fname = some "ADDED" := by
  cases hdl : detectLive stored init files with
  | none => simp [detect_files, hdl] at h
  | some m0 =>
    simp only [detect_files, hdl, Option.some.injEq] at h
    rw [← h, markDeleted_frame (Or.inl (lmem_iff.mpr (List.mem_map_of_mem _ hf))),
      detectLive_added hn hf hl hdl]

theorem df_deleted {stored init : FileMap} {files : List FSFile} {fn : String}
    {m : FileMap} (hmem : fn ∈ stored.map Prod.fst)
    (hlive : fn ∉ files.map FSFile.fname)
    (h : detect_files stored files init = some m) :
    dlookup m fn = some "DELETED" := by
  cases hdl : detectLive stored init files with
  | none => simp [detect_files, hdl] at h
  | some m0 =>
    simp only [detect_files, hdl, Option.some.injEq] at h
    rw [← h, markDeleted_deleted hmem (lmem_eq_false.mpr hlive)]

theorem df_success (stored init : FileMap) (files : List FSFile)
    (hok : ∀ f ∈ files, (dlookup stored f.fname).isSome = true →
      (string_hash f).isSome = true) :
    ∃ m, detect_files stored files init = some m := by
  rcases detectLive_success hok init with ⟨m0, hm0⟩
  exact ⟨markDeleted (files.map FSFile.fname) m0 stored, by simp [detect_files, hm0]⟩

theorem rtLive {st : FileMap} :
    ∀ (files : List FSFile) (acc : FileMap),
      (∀ f ∈ files, ∃ h, string_hash f = some h ∧ dlookup st f.fname = some h) →
      (acc.map Prod.fst).Nodup →
      (∀ kv ∈ acc, kv.2 = "UNMODIFIED" ∨ kv.1 ∈ files.map FSFile.fname) →
      ∃ m, detectLive st acc files = some m ∧ ∀ kv ∈ m, kv.2 = "UNMODIFIED" := by
  intro files
  induction files with
  | nil =>
    intro acc _ _ hv
    refine ⟨acc, rfl, fun kv hkv => ?_⟩
    rcases hv kv hkv with h | h
    · exact h
    · simp at h
  | cons g rest ih =>
    intro acc hall hnd hv
    rcases hall g (List.mem_cons_self _ _) with ⟨hv0, hsh, hst⟩
    rcases ih (dinsert acc g.fname "UNMODIFIED")
        (fun f hf => hall f (List.mem_cons_of_mem _ hf))
        (nodup_keys_dinsert _ _ hnd)
        (fun kv hkv => by
          rcases mem_dinsert_nodup hnd hkv with hkv | ⟨hkv, hne⟩
          · exact Or.inl (congrArg Prod.snd hkv)
          · rcases hv kv hkv with h | h
            · exact Or.inl h
            · simp only [List.map_cons, List.mem_cons] at h
              exact Or.inr (h.resolve_left hne)) with ⟨m, hm, hvals⟩
    exact ⟨m, by simp [detectLive, hst, hsh, hm], hvals⟩

theorem df_roundtrip {files : List FSFile} {fm : FileMap}
    (hn : (files.map FSFile.fname).Nodup) (hsf : scanFiles [] files = some fm) :
    ∃ m, detect_files fm files fm = some m ∧ ∀ kv ∈ m, kv.2 = "UNMODIFIED" := by
  have hkeys : ∀ kv ∈ fm, kv.1 ∈ files.map FSFile.fname := by
    intro kv hkv
    have := (scanFiles_keys hsf).mp (List.mem_map_of_mem Prod.fst hkv)
    simpa using this
  rcases rtLive files fm
      (fun f hf => scanFiles_lookup hn hf hsf)
      (scanFiles_nodup_keys hsf (by simp))
      (fun kv hkv => Or.inr (hkeys kv hkv)) with ⟨m, hdl, hvals⟩
  refine ⟨m, ?_, hvals⟩
  simp only [detect_files, hdl]
  rw [markDeleted_noop (fun kv hkv => lmem_iff.mpr (hkeys kv hkv))]

/-! ## Lemmas about the directory-level branches of `detect` -/

theorem addedFiles_lookup_aux {fn : String} :
    ∀ (files : List FSFile) (acc : FileMap),
      (dlookup acc fn = some "ADDED" ∨ fn ∈ files.map FSFile.fname) →
      dlookup (addedFiles acc files) fn = some "ADDED" := by
  intro files
  induction files with
  | nil =>
    intro acc h
    simpa [addedFiles] using h.resolve_right (by simp)
  | cons g rest ih =>
    intro acc h
    simp only [addedFiles]
    by_cases he : fn = g.fname
    · exact ih _ (Or.inl (he ▸ dlookup_dinsert_self _ _ _))
    · refine ih _ ?_
      rcases h with h | h
      · exact Or.inl (by rw [dlookup_dinsert_ne _ he]; exact h)
      · simp only [List.map_cons, List.mem_cons] at h
        exact Or.inr (h.resolve_left he)

theorem addedFiles_lookup {files : List FSFile} {f : FSFile} (hf : f ∈ files) :
    dlookup (addedFiles [] files) f.fname = some "ADDED" :=
  addedFiles_lookup_aux files [] (Or.inr (List.mem_map_of_mem _ hf))

theorem markAllDeleted_lookup_aux {fn : String} :
    ∀ (st cur : FileMap),
      (dlookup cur fn = some "DELETED" ∨ fn ∈ st.map Prod.fst) →
      dlookup (markAllDeleted cur st) fn = some "DELETED" := by
  intro st
  induction st with
  | nil =>
    intro cur h
    simpa [markAllDeleted] using h.resolve_right (by simp)
  | cons kv rest ih =>
    intro cur h
    obtain ⟨k, v⟩ := kv
    simp only [markAllDeleted]
    by_cases he : fn = k
    · exact ih _ (Or.inl (he ▸ dlookup_dinsert_self _ _ _))
    · refine ih _ ?_
      rcases h with h | h
      · exact Or.inl (by rw [dlookup_dinsert_ne _ he]; exact h)
      · simp only [List.map_cons, List.mem_cons] at h
        exact Or.inr (h.resolve_left he)

theorem markAllDeleted_lookup {st cur : FileMap} {fn : String}
    (h : fn ∈ st.map Prod.fst) :
    dlookup (markAllDeleted cur st) fn = some "DELETED" :=
  markAllDeleted_lookup_aux st cur (Or.inr h)

theorem dd_seen {stored : DirectoryMap} {ws : List (FPath × List FSFile)} :
    ∀ {acc seen acc2 seen2}, detectDirs stored acc seen ws = some (acc2, seen2) →
      seen2 = seen ++ ws.map Prod.fst := by
  induction ws with
  | nil =>
    intro acc seen acc2 seen2 h
    simp [detectDirs] at h
    simp [h.2]
  | cons e rest ih =>
    intro acc seen acc2 seen2 h
    obtain ⟨dp0, files0⟩ := e
    cases hl : dlookup stored dp0 with
    | none =>
      simp only [detectDirs, hl] at h
      rw [ih h]
      simp
    | some fm =>
      cases ha : dlookup acc dp0 with
      | none => simp [detectDirs, hl, ha] at h
      | some cur =>
        cases hdf : detect_files fm files0 cur with
        | none => simp [detectDirs, hl, ha, hdf] at h
        | some m =>
          simp only [detectDirs, hl, ha, hdf] at h
          rw [ih h]
          simp

theorem dd_frame {stored : DirectoryMap} {ws : List (FPath × List FSFile)}
    {dp : FPath} (hdp : dp ∉ ws.map Prod.fst) :
    ∀ {acc seen acc2 seen2}, detectDirs stored acc seen ws = some (acc2, seen2) →
      dlookup acc2 dp = dlookup acc dp := by
  induction ws with
  | nil =>
    intro acc seen acc2 seen2 h
    simp [detectDirs] at h
    simp [h.1]
  | cons e rest ih =>
    intro acc seen acc2 seen2 h
    obtain ⟨dp0, files0⟩ := e
    simp only [List.map_cons, List.mem_cons, not_or] at hdp
    cases hl : dlookup stored dp0 with
    | none =>
      simp only [detectDirs, hl] at h
      rw [ih hdp.2 h, dlookup_dinsert_ne _ hdp.1]
    | some fm =>
      cases ha : dlookup acc dp0 with
      | none => simp [detectDirs, hl, ha] at h
      | some cur =>
        cases hdf : detect_files fm files0 cur with
        | none => simp [detectDirs, hl, ha, hdf] at h
        | some m =>
          simp only [detectDirs, hl, ha, hdf] at h
          rw [ih hdp.2 h, dlookup_dinsert_ne _ hdp.1]

theorem dd_isSome {stored : DirectoryMap} {ws : List (FPath × List FSFile)}
    {x : FPath} :
    ∀ {acc seen acc2 seen2}, detectDirs stored acc seen ws = some (acc2, seen2) →
      (dlookup acc x).isSome = true → (dlookup acc2 x).isSome = true := by
  induction ws with
  | nil =>
    intro acc seen acc2 seen2 h
    simp [detectDirs] at h
    simp [h.1]
  | cons e rest ih =>
    intro acc seen acc2 seen2 h hx
    obtain ⟨dp0, files0⟩ := e
    cases hl : dlookup stored dp0 with
    | none =>
      simp only [detectDirs, hl] at h
      exact ih h (dlookup_isSome_dinsert _ _ hx)
    | some fm =>
      cases ha : dlookup acc dp0 with
      | none => simp [detectDirs, hl, ha] at h
      | some cur =>
        cases hdf : detect_files fm files0 cur with
        | none => simp [detectDirs, hl, ha, hdf] at h
        | some m =>
          simp only [detectDirs, hl, ha, hdf] at h
          exact ih h (dlookup_isSome_dinsert _ _ hx)

theorem dd_fail {stored : DirectoryMap} {ws : List (FPath × List FSFile)}
    {dp : FPath} {files : List FSFile} {fm : FileMap} {f : FSFile}
    (hw : (dp, files) ∈ ws) (hst : dlookup stored dp = some fm)
    (hf : f ∈ files) (hstf : (dlookup fm f.fname).isSome = true)
    (hh : string_hash f = none) :
    ∀ acc seen, detectDirs stored acc seen ws = none := by
  induction ws with
  | nil => simp at hw
  | cons e rest ih =>
    intro acc seen
    obtain ⟨dp0, files0⟩ := e
    rcases List.mem_cons.mp hw with hw | hw
    · injection hw with h1 h2
      subst h1; subst h2
      cases ha : dlookup acc dp with
      | none => simp [detectDirs, hst, ha]
      | some cur => simp [detectDirs, hst, ha, df_fail hf hstf hh cur]
    · cases hl : dlookup stored dp0 with
      | none => simp [detectDirs, hl, ih hw]
      | some fm0 =>
        cases ha : dlookup acc dp0 with
        | none => simp [detectDirs, hl, ha]
        | some cur =>
          cases hdf : detect_files fm0 files0 cur with
          | none => simp [detectDirs, hl, ha, hdf]
          | some m => simp [detectDirs, hl, ha, hdf, ih hw]

theorem dd_known {stored : DirectoryMap} {ws : List (FPath × List FSFile)}
    {dp : FPath} {files : List FSFile} {fm : FileMap}
    (hn : (ws.map Prod.fst).Nodup) (hw : (dp, files) ∈ ws)
    (hst : dlookup stored dp = some fm) :
    ∀ {acc seen acc2 seen2}, dlookup acc dp = some fm →
      detectDirs stored acc seen ws = some (acc2, seen2) →
      ∃ m, detect_files fm files fm = some m ∧ dlookup acc2 dp = some m := by
  induction ws with
  | nil => simp at hw
  | cons e rest ih =>
    intro acc seen acc2 seen2 hacc h
    obtain ⟨dp0, files0⟩ := e
    simp only [List.map_cons, List.nodup_cons] at hn
    rcases List.mem_cons.mp hw with hw | hw
    · injection hw with h1 h2
      subst h1; subst h2
      cases hdf : detect_files fm files fm with
      | none => simp [detectDirs, hst, hacc, hdf] at h
      | some m =>
        simp only [detectDirs, hst, hacc, hdf] at h
        refine ⟨m, rfl, ?_⟩
        rw [dd_frame hn.1 h, dlookup_dinsert_self]
    · have hne : dp ≠ dp0 := by
        intro he
        exact hn.1 (he ▸ List.mem_map_of_mem Prod.fst hw)
      cases hl : dlookup stored dp0 with
      | none =>
        simp only [detectDirs, hl] at h
        exact ih hn.2 hw (by rw [dlookup_dinsert_ne _ hne]; exact hacc) h
      | some fm0 =>
        cases ha : dlookup acc dp0 with
        | none => simp [detectDirs, hl, ha] at h
        | some cur =>
          cases hdf : detect_files fm0 files0 cur with
          | none => simp [detectDirs, hl, ha, hdf] at h
          | some m0 =>
            simp only [detectDirs, hl, ha, hdf] at h
            exact ih hn.2 hw (by rw [dlookup_dinsert_ne _ hne]; exact hacc) h

theorem dd_added {stored : DirectoryMap} {ws : List (FPath × List FSFile)}
    {dp : FPath} {files : List FSFile}
    (hn : (ws.map Prod.fst).Nodup) (hw : (dp, files) ∈ ws)
    (hst : dlookup stored dp = none) :
    ∀ {acc seen acc2 seen2}, detectDirs stored acc seen ws = some (acc2, seen2) →
      dlookup acc2 dp = some (addedFiles [] files) := by
  induction ws with
  | nil => simp at hw
  | cons e rest ih =>
    intro acc seen acc2 seen2 h
    obtain ⟨dp0, files0⟩ := e
    simp only [List.map_cons, List.nodup_cons] at hn
    rcases List.mem_cons.mp hw with hw | hw
    · injection hw with h1 h2
      subst h1; subst h2
      simp only [detectDirs, hst] at h
      rw [dd_frame hn.1 h, dlookup_dinsert_self]
    · cases hl : dlookup stored dp0 with
      | none =>
        simp only [detectDirs, hl] at h
        exact ih hn.2 hw h
      | some fm0 =>
        cases ha : dlookup acc dp0 with
        | none => simp [detectDirs, hl, ha] at h
        | some cur =>
          cases hdf : detect_files fm0 files0 cur with
          | none => simp [detectDirs, hl, ha, hdf] at h
          | some m0 =>
            simp only [detectDirs, hl, ha, hdf] at h
            exact ih hn.2 hw h

theorem dd_success {stored : DirectoryMap} {ws : List (FPath × List FSFile)}
    (hok : ∀ dp files fm, (dp, files) ∈ ws → dlookup stored dp = some fm →
      ∀ f ∈ files, (dlookup fm f.fname).isSome = true →
        (string_hash f).isSome = true) :
    ∀ acc seen, (∀ dp fm, dlookup stored dp = some fm →
        (dlookup acc dp).isSome = true) →
      ∃ p, detectDirs stored acc seen ws = some p := by
  induction ws with
  | nil => intro acc seen _; exact ⟨(acc, seen), rfl⟩
  | cons e rest ih =>
    intro acc seen hacc
    obtain ⟨dp0, files0⟩ := e
    have hok' : ∀ dp files fm, (dp, files) ∈ rest → dlookup stored dp = some fm →
        ∀ f ∈ files, (dlookup fm f.fname).isSome = true →
          (string_hash f).isSome = true :=
      fun dp files fm hm => hok dp files fm (List.mem_cons_of_mem _ hm)
    cases hl : dlookup stored dp0 with
    | none =>
      rcases ih hok' (dinsert acc dp0 (addedFiles [] files0)) (seen ++ [dp0])
          (fun dp fm hfm => dlookup_isSome_dinsert _ _ (hacc dp fm hfm)) with ⟨p, hp⟩
      exact ⟨p, by simp [detectDirs, hl, hp]⟩
    | some fm =>
      rcases Option.isSome_iff_exists.mp (hacc dp0 fm hl) with ⟨cur, hcur⟩
      rcases df_success fm cur files0
          (hok dp0 files0 fm (List.mem_cons_self _ _) hl) with ⟨m, hdf⟩
      rcases ih hok' (dinsert acc dp0 m) (seen ++ [dp0])
          (fun dp fm2 hfm => dlookup_isSome_dinsert _ _ (hacc dp fm2 hfm)) with ⟨p, hp⟩
      exact ⟨p, by simp [detectDirs, hl, hcur, hdf, hp]⟩

theorem rt_dirs {stored : DirectoryMap} :
    ∀ (todo : List (FPath × List FSFile)) (acc : DirectoryMap) (seen : List FPath),
      (todo.map Prod.fst).Nodup →
      (∀ e ∈ todo, (e.2.map FSFile.fname).Nodup) →
      (∀ e ∈ todo, ∃ fm, scanFiles [] e.2 = some fm ∧
        dlookup stored e.1 = some fm ∧ dlookup acc e.1 = some fm) →
      (acc.map Prod.fst).Nodup →
      (∀ kv ∈ acc, (∀ kv2 ∈ kv.2, kv2.2 = "UNMODIFIED") ∨ kv.1 ∈ todo.map Prod.fst) →
      ∃ acc2 seen2, detectDirs stored acc seen todo = some (acc2, seen2) ∧
        ∀ kv ∈ acc2, ∀ kv2 ∈ kv.2, kv2.2 = "UNMODIFIED" := by
  intro todo
  induction todo with
  | nil =>
    intro acc seen _ _ _ _ hvals
    refine ⟨acc, seen, rfl, fun kv hkv => ?_⟩
    rcases hvals kv hkv with h | h
    · exact h
    · simp at h
  | cons e rest ih =>
    intro acc seen hn hfn hinv hnd hvals
    obtain ⟨dp0, files0⟩ := e
    simp only [List.map_cons, List.nodup_cons] at hn
    rcases hinv (dp0, files0) (List.mem_cons_self _ _) with ⟨fm, hsf, hst, hacc⟩
    rcases df_roundtrip (hfn (dp0, files0) (List.mem_cons_self _ _)) hsf with ⟨m, hdf, hmv⟩
    rcases ih (dinsert acc dp0 m) (seen ++ [dp0]) hn.2
        (fun e he => hfn e (List.mem_cons_of_mem _ he))
        (fun e he => by
          rcases hinv e (List.mem_cons_of_mem _ he) with ⟨fm2, h1, h2, h3⟩
          have hne : e.1 ≠ dp0 := by
            intro hcontra
            exact hn.1 (hcontra ▸ List.mem_map_of_mem Prod.fst he)
          exact ⟨fm2, h1, h2, by rw [dlookup_dinsert_ne _ hne]; exact h3⟩)
        (nodup_keys_dinsert _ _ hnd)
        (fun kv hkv => by
          rcases mem_dinsert_nodup hnd hkv with hkv | ⟨hkv, hne⟩
          · subst hkv
            exact Or.inl hmv
          · rcases hvals kv hkv with h | h
            · exact Or.inl h
            · simp only [List.map_cons, List.mem_cons] at h
              exact Or.inr (h.resolve_left hne)) with ⟨acc2, seen2, hdd, hall⟩
    exact ⟨acc2, seen2, by simp [detectDirs, hst, hacc, hdf, hdd], hall⟩

theorem del_noop {seen : List FPath} {st : DirectoryMap}
    (h : ∀ kv ∈ st, lmem kv.1 seen = true) :
    ∀ acc, deletedDirs seen acc st = some acc := by
  induction st with
  | nil => intro acc; rfl
  | cons kv rest ih =>
    intro acc
    obtain ⟨dp0, fm0⟩ := kv
    have hdp := h (dp0, fm0) (List.mem_cons_self _ _)
    simp only [deletedDirs, if_pos hdp]
    exact ih (fun kv2 h2 => h kv2 (List.mem_cons_of_mem _ h2)) acc

theorem del_frame_seen {seen : List FPath} {dp : FPath}
    (hdp : lmem dp seen = true) {st : DirectoryMap} :
    ∀ {acc res}, deletedDirs seen acc st = some res → dlookup res dp = dlookup acc dp := by
  induction st with
  | nil =>
    intro acc res h
    simp [deletedDirs] at h
    simp [h]
  | cons kv rest ih =>
    intro acc res h
    obtain ⟨dp0, fm0⟩ := kv
    by_cases h0 : lmem dp0 seen
    · simp only [deletedDirs, if_pos h0] at h
      exact ih h
    · have hne : dp ≠ dp0 := by
        intro he
        rw [← he] at h0
        exact h0 hdp
      simp only [deletedDirs, if_neg h0] at h
      cases ha : dlookup acc dp0 with
      | none => simp [ha] at h
      | some cur =>
        simp only [ha] at h
        rw [ih h, dlookup_dinsert_ne _ hne]

theorem del_frame_keys {dp : FPath} {st : DirectoryMap}
    (hdp : dp ∉ st.map Prod.fst) {seen : List FPath} :
    ∀ {acc res}, deletedDirs seen acc st = some res → dlookup res dp = dlookup acc dp := by
  induction st with
  | nil =>
    intro acc res h
    simp [deletedDirs] at h
    simp [h]
  | cons kv rest ih =>
    intro acc res h
    obtain ⟨dp0, fm0⟩ := kv
    simp only [List.map_cons, List.mem_cons, not_or] at hdp
    by_cases h0 : lmem dp0 seen
    · simp only [deletedDirs, if_pos h0] at h
      exact ih hdp.2 h
    · simp only [deletedDirs, if_neg h0] at h
      cases ha : dlookup acc dp0 with
      | none => simp [ha] at h
      | some cur =>
        simp only [ha] at h
        rw [ih hdp.2 h, dlookup_dinsert_ne _ hdp.1]

theorem del_removed {seen : List FPath} {dp : FPath} {fm : FileMap}
    {st : DirectoryMap} (hnod : (st.map Prod.fst).Nodup)
    (hmem : (dp, fm) ∈ st) (hseen : lmem dp seen = false) :
    ∀ {acc res}, dlookup acc dp = some fm →
      deletedDirs seen acc st = some res →
      dlookup res dp = some (markAllDeleted fm fm) := by
  induction st with
  | nil => simp at hmem
  | cons kv rest ih =>
    intro acc res hacc h
    obtain ⟨dp0, fm0⟩ := kv
    simp only [List.map_cons, List.nodup_cons] at hnod
    rcases List.mem_cons.mp hmem with hmem | hmem
    · injection hmem with h1 h2
      subst h1; subst h2
      have h0 : ¬ lmem dp seen = true := by simp [hseen]
      simp only [deletedDirs, if_neg h0, hacc] at h
      have hrest : dp ∉ rest.map Prod.fst := hnod.1
      rw [del_frame_keys hrest h, dlookup_dinsert_self]
    · have hne : dp ≠ dp0 := by
        intro he
        exact hnod.1 (he ▸ List.mem_map_of_mem Prod.fst hmem)
      by_cases h0 : lmem dp0 seen
      · simp only [deletedDirs, if_pos h0] at h
        exact ih hnod.2 hmem hacc h
      · simp only [deletedDirs, if_neg h0] at h
        cases ha : dlookup acc dp0 with
        | none => simp [ha] at h
        | some cur =>
          simp only [ha] at h
          exact ih hnod.2 hmem (by rw [dlookup_dinsert_ne _ hne]; exact hacc) h

theorem del_success (seen : List FPath) {st : DirectoryMap} :
    ∀ acc, (∀ kv ∈ st, (dlookup acc kv.1).isSome = true) →
      ∃ res, deletedDirs seen acc st = some res := by
  induction st with
  | nil => intro acc _; exact ⟨acc, rfl⟩
  | cons kv rest ih =>
    intro acc hacc
    obtain ⟨dp0, fm0⟩ := kv
    by_cases h0 : lmem dp0 seen
    · rcases ih acc (fun kv2 h2 => hacc kv2 (List.mem_cons_of_mem _ h2)) with ⟨res, hres⟩
      exact ⟨res, by simp [deletedDirs, h0, hres]⟩
    · rcases Option.isSome_iff_exists.mp (hacc (dp0, fm0) (List.mem_cons_self _ _)) with
        ⟨cur, hcur⟩
      rcases ih (dinsert acc dp0 (markAllDeleted cur fm0)) (fun kv2 h2 =>
          dlookup_isSome_dinsert _ _ (hacc kv2 (List.mem_cons_of_mem _ h2))) with ⟨res, hres⟩
      exact ⟨res, by simp [deletedDirs, h0, hcur, hres]⟩

/-! ## Lemmas about one root inside `detect` -/

theorem dr_fail {fs : FS} {r : FPath} {tree : FSTree} {stored : DirectoryMap}
    {dp : FPath} {files : List FSFile} {fm : FileMap} {f : FSFile}
    (hfs : dlookup fs r = some tree) (hw : (dp, files) ∈ walk r tree)
    (hst : dlookup stored dp = some fm) (hf : f ∈ files)
    (hstf : (dlookup fm f.fname).isSome = true) (hh : string_hash f = none) :
    detectRoot fs r stored = none := by
  have hlw : liveWalk fs r = walk r tree := by simp [liveWalk, hfs]
  simp [detectRoot, hlw, dd_fail hw hst hf hstf hh]

theorem dr_roundtrip {fs : FS} {r : FPath} {tree : FSTree} {stored : DirectoryMap}
    (hfs : dlookup fs r = some tree) (hwf : wfWalk (walk r tree) = true)
    (hsw : scanWalk [] (walk r tree) = some stored) :
    ∃ dm', detectRoot fs r stored = some dm' ∧
      ∀ kv ∈ dm', ∀ kv2 ∈ kv.2, kv2.2 = "UNMODIFIED" := by
  have hlw : liveWalk fs r = walk r tree := by simp [liveWalk, hfs]
  rcases Bool.and_eq_true .. ▸ hwf with ⟨hp, hfn⟩
  have hpaths : ((walk r tree).map Prod.fst).Nodup := lnodup_iff.mp hp
  have hnames : ∀ e ∈ walk r tree, (e.2.map FSFile.fname).Nodup := by
    intro e he
    exact lnodup_iff.mp (List.all_eq_true.mp hfn e he)
  have hkeys : ∀ kv ∈ stored, kv.1 ∈ (walk r tree).map Prod.fst := by
    intro kv hkv
    have := (scanWalk_keys hsw).mp (List.mem_map_of_mem Prod.fst hkv)
    simpa using this
  rcases rt_dirs (walk r tree) stored [] hpaths hnames
      (fun e he => by
        rcases scanWalk_lookup hpaths (by simpa using he) hsw with ⟨fm, hsf, hlook⟩
        exact ⟨fm, hsf, hlook, hlook⟩)
      (scanWalk_nodup_keys hsw (by simp))
      (fun kv hkv => Or.inr (hkeys kv hkv)) with ⟨acc2, seen2, hdd, hall⟩
  have hseen : seen2 = (walk r tree).map Prod.fst := by
    rw [dd_seen hdd]
    simp
  refine ⟨acc2, ?_, hall⟩
  simp only [detectRoot, hlw, hdd]
  exact del_noop (fun kv hkv => lmem_iff.mpr (hseen ▸ hkeys kv hkv)) acc2

theorem dr_known {fs : FS} {r : FPath} {stored : DirectoryMap}
    {dp : FPath} {files : List FSFile} {fm : FileMap} {dm' : DirectoryMap}
    (hn : ((liveWalk fs r).map Prod.fst).Nodup)
    (hw : (dp, files) ∈ liveWalk fs r) (hst : dlookup stored dp = some fm)
    (h : detectRoot fs r stored = some dm') :
    ∃ m, detect_files fm files fm = some m ∧ dlookup dm' dp = some m := by
  cases hdd : detectDirs stored stored [] (liveWalk fs r) with
  | none => simp [detectRoot, hdd] at h
  | some p =>
    obtain ⟨acc2, seen2⟩ := p
    simp only [detectRoot, hdd] at h
    rcases dd_known hn hw hst hst hdd with ⟨m, hdf, hacc2⟩
    refine ⟨m, hdf, ?_⟩
    have hseen : lmem dp seen2 = true := by
      rw [dd_seen hdd]
      exact lmem_iff.mpr (by simpa using List.mem_map_of_mem Prod.fst hw)
    rw [del_frame_seen hseen h, hacc2]

theorem dr_added {fs : FS} {r : FPath} {stored : DirectoryMap}
    {dp : FPath} {files : List FSFile} {dm' : DirectoryMap}
    (hn : ((liveWalk fs r).map Prod.fst).Nodup)
    (hw : (dp, files) ∈ liveWalk fs r) (hst : dlookup stored dp = none)
    (h : detectRoot fs r stored = some dm') :
    dlookup dm' dp = some (addedFiles [] files) := by
  cases hdd : detectDirs stored stored [] (liveWalk fs r) with
  | none => simp [detectRoot, hdd] at h
  | some p =>
    obtain ⟨acc2, seen2⟩ := p
    simp only [detectRoot, hdd] at h
    have hkeys : dp ∉ stored.map Prod.fst := by
      intro hmem
      rw [← dlookup_isSome_iff] at hmem
      simp [hst] at hmem
    rw [del_frame_keys hkeys h, dd_added hn hw hst hdd]

theorem dr_removed {fs : FS} {r : FPath} {stored : DirectoryMap}
    {dp : FPath} {fm : FileMap} {dm' : DirectoryMap}
    (hnod : (stored.map Prod.fst).Nodup)
    (hst : dlookup stored dp = some fm)
    (hdp : dp ∉ (liveWalk fs r).map Prod.fst)
    (h : detectRoot fs r stored = some dm') :
    dlookup dm' dp = some (markAllDeleted fm fm) := by
  cases hdd : detectDirs stored stored [] (liveWalk fs r) with
  | none => simp [detectRoot, hdd] at h
  | some p =>
    obtain ⟨acc2, seen2⟩ := p
    simp only [detectRoot, hdd] at h
    have hacc2 : dlookup acc2 dp = some fm := by
      rw [dd_frame hdp hdd, hst]
    have hseen : lmem dp seen2 = false := by
      rw [dd_seen hdd]
      exact lmem_eq_false.mpr (by simpa using hdp)
    exact del_removed hnod (dlookup_mem hst) hseen hacc2 h

theorem dr_success {fs : FS} {r : FPath} {stored : DirectoryMap}
    (hok : ∀ dp files fm, (dp, files) ∈ liveWalk fs r →
      dlookup stored dp = some fm →
      ∀ f ∈ files, (dlookup fm f.fname).isSome = true →
        (string_hash f).isSome = true) :
    ∃ dm', detectRoot fs r stored = some dm' := by
  rcases dd_success hok stored []
      (fun dp fm hfm => by simp [hfm]) with ⟨p, hdd⟩
  obtain ⟨acc2, seen2⟩ := p
  rcases del_success seen2 acc2
      (fun kv hkv => dd_isSome hdd
        (dlookup_isSome_iff.mpr (List.mem_map_of_mem Prod.fst hkv))) with ⟨res, hres⟩
  exact ⟨res, by simp [detectRoot, hdd, hres]⟩

/-! ## Lemmas about the root loop of `detect` -/

theorem drs_fail {fs : FS} {items : Snapshot} {r : FPath} {stored : DirectoryMap}
    (hm : (r, stored) ∈ items) (hr : detectRoot fs r stored = none) :
    ∀ acc, detectRoots fs acc items = none := by
  induction items with
  | nil => simp at hm
  | cons e rest ih =>
    intro acc
    obtain ⟨r0, stored0⟩ := e
    rcases List.mem_cons.mp hm with hm | hm
    · injection hm with h1 h2
      subst h1; subst h2
      simp [detectRoots, hr]
    · cases hr0 : detectRoot fs r0 stored0 with
      | none => simp [detectRoots, hr0]
      | some dm0 => simp [detectRoots, hr0, ih hm]

theorem drs_frame {fs : FS} {items : Snapshot} {r : FPath}
    (hr : r ∉ items.map Prod.fst) :
    ∀ {acc res}, detectRoots fs acc items = some res →
      dlookup res r = dlookup acc r := by
  induction items with
  | nil =>
    intro acc res h
    simp [detectRoots] at h
    simp [h]
  | cons e rest ih =>
    intro acc res h
    obtain ⟨r0, stored0⟩ := e
    simp only [List.map_cons, List.mem_cons, not_or] at hr
    cases hr0 : detectRoot fs r0 stored0 with
    | none => simp [detectRoots, hr0] at h
    | some dm0 =>
      simp only [detectRoots, hr0] at h
      rw [ih hr.2 h, dlookup_dinsert_ne _ hr.1]

theorem drs_lookup {fs : FS} {items : Snapshot} {r : FPath} {stored : DirectoryMap}
    (hn : (items.map Prod.fst).Nodup) (hm : (r, stored) ∈ items) :
    ∀ {acc res}, detectRoots fs acc items = some res →
      ∃ dm', detectRoot fs r stored = some dm' ∧ dlookup res r = some dm' := by
  induction items with
  | nil => simp at hm
  | cons e rest ih =>
    intro acc res h
    obtain ⟨r0, stored0⟩ := e
    simp only [List.map_cons, List.nodup_cons] at hn
    rcases List.mem_cons.mp hm with hm | hm
    · injection hm with h1 h2
      subst h1; subst h2
      cases hr0 : detectRoot fs r stored with
      | none => simp [detectRoots, hr0] at h
      | some dm0 =>
        simp only [detectRoots, hr0] at h
        refine ⟨dm0, rfl, ?_⟩
        rw [drs_frame hn.1 h, dlookup_dinsert_self]
    · cases hr0 : detectRoot fs r0 stored0 with
      | none => simp [detectRoots, hr0] at h
      | some dm0 =>
        simp only [detectRoots, hr0] at h
        exact ih hn.2 hm h

theorem drs_success {fs : FS} {items : Snapshot}
    (hok : ∀ e ∈ items, ∃ dm', detectRoot fs e.1 e.2 = some dm') :
    ∀ acc, ∃ res, detectRoots fs acc items = some res := by
  induction items with
  | nil => intro acc; exact ⟨acc, rfl⟩
  | cons e rest ih =>
    intro acc
    obtain ⟨r0, stored0⟩ := e
    rcases hok (r0, stored0) (List.mem_cons_self _ _) with ⟨dm0, hr0⟩
    rcases ih (fun e2 h2 => hok e2 (List.mem_cons_of_mem _ h2))
        (dinsert acc r0 dm0) with ⟨res, hres⟩
    exact ⟨res, by simp [detectRoots, hr0, hres]⟩

theorem drs_values {fs : FS} :
    ∀ (items : Snapshot) (acc : Snapshot),
      (items.map Prod.fst).Nodup →
      (∀ e ∈ items, ∃ dm', detectRoot fs e.1 e.2 = some dm' ∧
        ∀ kv ∈ dm', ∀ kv2 ∈ kv.2, kv2.2 = "UNMODIFIED") →
      (acc.map Prod.fst).Nodup →
      (∀ kv ∈ acc, (∀ kv2 ∈ kv.2, ∀ kv3 ∈ kv2.2, kv3.2 = "UNMODIFIED") ∨
        kv.1 ∈ items.map Prod.fst) →
      ∃ res, detectRoots fs acc items = some res ∧
        ∀ kv ∈ res, ∀ kv2 ∈ kv.2, ∀ kv3 ∈ kv2.2, kv3.2 = "UNMODIFIED" := by
  intro items
  induction items with
  | nil =>
    intro acc _ _ _ hvals
    refine ⟨acc, rfl, fun kv hkv => ?_⟩
    rcases hvals kv hkv with h | h
    · exact h
    · simp at h
  | cons e rest ih =>
    intro acc hn hok hnd hvals
    obtain ⟨r0, stored0⟩ := e
    simp only [List.map_cons, List.nodup_cons] at hn
    rcases hok (r0, stored0) (List.mem_cons_self _ _) with ⟨dm0, hr0, hdm0⟩
    rcases ih (dinsert acc r0 dm0) hn.2
        (fun e2 h2 => hok e2 (List.mem_cons_of_mem _ h2))
        (nodup_keys_dinsert _ _ hnd)
        (fun kv hkv => by
          rcases mem_dinsert_nodup hnd hkv with hkv | ⟨hkv, hne⟩
          · subst hkv
            exact Or.inl hdm0
          · rcases hvals kv hkv with h | h
            · exact Or.inl h
            · simp only [List.map_cons, List.mem_cons] at h
              exact Or.inr (h.resolve_left hne)) with ⟨res, hres, hall⟩
    exact ⟨res, by simp [detectRoots, hr0, hres], hall⟩

/-! ## Further helper lemmas for the claims -/

theorem walk_root_mem (r : FPath) (t : FSTree) : r ∈ (walk r t).map Prod.fst := by
  cases t
  simp [walk]

theorem scanRoots_preserve {fs : FS} {r : FPath} {tree : FSTree} {dm0 : DirectoryMap}
    (hfs : dlookup fs r = some tree) (hsw : scanWalk [] (walk r tree) = some dm0) :
    ∀ {roots : List FPath} {acc snap}, scanRoots fs acc roots = some snap →
      dlookup acc r = some dm0 → dlookup snap r = some dm0 := by
  intro roots
  induction roots with
  | nil =>
    intro acc snap h hacc
    simp [scanRoots] at h
    rw [← h]
    exact hacc
  | cons d rest ih =>
    intro acc snap h hacc
    by_cases hd : d = r
    · subst hd
      simp only [scanRoots, hfs, hsw] at h
      exact ih h (dlookup_dinsert_self _ _ _)
    · have hne : r ≠ d := fun he => hd he.symm
      cases hl : dlookup fs d with
      | none =>
        simp only [scanRoots, hl] at h
        exact ih h hacc
      | some t0 =>
        cases hsw0 : scanWalk ([] : DirectoryMap) (walk d t0) with
        | none => simp [scanRoots, hl, hsw0] at h
        | some dm1 =>
          simp only [scanRoots, hl, hsw0] at h
          exact ih h (by rw [dlookup_dinsert_ne _ hne]; exact hacc)

theorem scanRoots_lookup_valid {fs : FS} {r : FPath} {tree : FSTree}
    (hfs : dlookup fs r = some tree) :
    ∀ {roots : List FPath} {acc snap}, r ∈ roots →
      scanRoots fs acc roots = some snap →
      ∃ dm, scanWalk [] (walk r tree) = some dm ∧ dlookup snap r = some dm := by
  intro roots
  induction roots with
  | nil => intro acc snap h; simp at h
  | cons d rest ih =>
    intro acc snap hmem h
    by_cases hd : d = r
    · subst hd
      cases hsw : scanWalk ([] : DirectoryMap) (walk d tree) with
      | none => simp [scanRoots, hfs, hsw] at h
      | some dm0 =>
        simp only [scanRoots, hfs, hsw] at h
        exact ⟨dm0, rfl, scanRoots_preserve hfs hsw h (dlookup_dinsert_self _ _ _)⟩
    · have hmem' : r ∈ rest :=
        (List.mem_cons.mp hmem).resolve_left (fun he => hd he.symm)
      cases hl : dlookup fs d with
      | none =>
        simp only [scanRoots, hl] at h
        exact ih hmem' h
      | some t0 =>
        cases hsw0 : scanWalk ([] : DirectoryMap) (walk d t0) with
        | none => simp [scanRoots, hl, hsw0] at h
        | some dm1 =>
          simp only [scanRoots, hl, hsw0] at h
          exact ih hmem' h

theorem scanRootLog_mem {fs : FS} {r : FPath} (hr : dlookup fs r = none) :
    ∀ pre post,
      ("ERROR", "Input directory " ++ String.intercalate "/" r ++ " is invalid") ∈
        scanRootLog fs (pre ++ r :: post) := by
  intro pre
  induction pre with
  | nil =>
    intro post
    simp [scanRootLog, hr]
  | cons d rest ih =>
    intro post
    simp only [List.cons_append]
    cases hl : dlookup fs d with
    | none =>
      simp only [scanRootLog, hl]
      exact List.mem_cons_of_mem _ (ih post)
    | some t0 =>
      simp only [scanRootLog, hl]
      exact ih post

/-! ## Sanity anchors for the hash implementation -/

theorem sha256hex_empty :
    sha256hex [] =
      "e3b0c44298fc1c149afbf4c8996fb92427ae41e4649b934ca495991b7852b855" := by
  decide

theorem sha256hex_abc :
    sha256hex [97, 98, 99] =
      "ba7816bf8f01cfea414140de5dae2223b00361a396177a9cb410ff61f20015ad" := by
  decide

/-! ## The claims -/

/-- C1: Round-trip classification.  For every filesystem whose trees are
well formed (no repeated sibling names, as on a real disk), if `scan`
succeeds and produces a snapshot, then `detect` run on that snapshot
against the unchanged filesystem succeeds and every file leaf of every
root of the resulting DiffResult is `UNMODIFIED` — in particular no leaf
is `MODIFIED`, `ADDED` or `DELETED`, and every directory is treated as
known. -/
theorem fileseeker_C1_round_trip {fs : FS} {roots : List FPath} {snap : Snapshot}
    (hwf : ∀ e ∈ fs, wfWalk (walk e.1 e.2) = true)
    (hscan : scan fs roots = some snap) :
    ∃ res, detect fs (some snap) = some res ∧
      ∀ kv ∈ res, ∀ kv2 ∈ kv.2, ∀ kv3 ∈ kv2.2, kv3.2 = "UNMODIFIED" := by
  have hsnap : (snap.map Prod.fst).Nodup := scanRoots_nodup_keys hscan (by simp)
  rcases drs_values snap snap hsnap
      (fun e he => by
        rcases scanRoots_entries hscan (show (e.1, e.2) ∈ snap from by simpa using he)
          with hin | ⟨tree, hfs, hsw⟩
        · simp at hin
        · have hwftree : wfWalk (walk e.1 tree) = true := hwf (e.1, tree) (dlookup_mem hfs)
          exact dr_roundtrip hfs hwftree hsw)
      hsnap
      (fun kv hkv => Or.inr (List.mem_map_of_mem Prod.fst hkv)) with ⟨res, hres, hall⟩
  exact ⟨res, by simp [detect, hres], hall⟩

/-- Witness for C1 at a concrete filesystem with one file and one empty
subdirectory. -/
theorem fileseeker_C1_round_trip_witness :
    ((∀ e ∈ fsW1, wfWalk (walk e.1 e.2) = true) ∧ scan fsW1 [["root1"]] = some snapW1) ∧
    ∃ res, detect fsW1 (some snapW1) = some res ∧
      ∀ kv ∈ res, ∀ kv2 ∈ kv.2, ∀ kv3 ∈ kv2.2, kv3.2 = "UNMODIFIED" :=
  ⟨⟨by decide, by decide⟩,
   @fileseeker_C1_round_trip fsW1 [["root1"]] snapW1 (by decide) (by decide)⟩

/-- C8: Snapshot shape invariant.  Every root entry of a snapshot written
by `scan` comes from a root that was a directory, its DirectoryMap has a
key for exactly the directory paths visited by recursively walking that
root (even directories with zero files), and the root path itself is
always one of those keys. -/
theorem fileseeker_C8_snapshot_shape {fs : FS} {roots : List FPath}
    {snap : Snapshot} {r : FPath} {dm : DirectoryMap}
    (hscan : scan fs roots = some snap) (hm : (r, dm) ∈ snap) :
    ∃ tree, dlookup fs r = some tree ∧
      (∀ dp, (dlookup dm dp).isSome = true ↔ dp ∈ (walk r tree).map Prod.fst) ∧
      (dlookup dm r).isSome = true := by
  rcases scanRoots_entries hscan hm with hin | ⟨tree, hfs, hsw⟩
  · simp at hin
  · refine ⟨tree, hfs, fun dp => ?_, ?_⟩
    · rw [dlookup_isSome_iff, scanWalk_keys hsw]
      simp
    · rw [dlookup_isSome_iff, scanWalk_keys hsw]
      exact Or.inr (walk_root_mem r tree)

/-- Witness for C8 at a concrete root containing only an empty
subdirectory. -/
theorem fileseeker_C8_snapshot_shape_witness :
    (scan fsW8 [["r8"]] = some snapW8 ∧ (["r8"], dmW8) ∈ snapW8) ∧
    ∃ tree, dlookup fsW8 ["r8"] = some tree ∧
      (∀ dp, (dlookup dmW8 dp).isSome = true ↔ dp ∈ (walk ["r8"] tree).map Prod.fst) ∧
      (dlookup dmW8 ["r8"]).isSome = true :=
  ⟨⟨by decide, by decide⟩,
   @fileseeker_C8_snapshot_shape fsW8 [["r8"]] snapW8 ["r8"] dmW8 (by decide) (by decide)⟩

/-- C10: Duplicate roots collapse.  Scanning a list of roots with
duplicates produces exactly the same result (artifact content or failure)
as scanning the list with later duplicates removed, and a successful
snapshot holds one entry per distinct valid root (its root keys are
pairwise distinct). -/
theorem fileseeker_C10_duplicate_roots (fs : FS) (roots : List FPath) :
    scan fs roots = scan fs (dedupRoots [] roots) ∧
    ∀ snap, scan fs roots = some snap → (snap.map Prod.fst).Nodup := by
  constructor
  · exact scanRoots_dedup fs roots [] [] (by simp)
  · intro snap h
    exact scanRoots_nodup_keys h (by simp)

/-- Witness for C10 at a concrete repeated root. -/
theorem fileseeker_C10_duplicate_roots_witness :
    (scan fsW10 [["r10"], ["r10"]] = scan fsW10 (dedupRoots [] [["r10"], ["r10"]])) ∧
    (scan fsW10 [["r10"], ["r10"]] = some snapW10 ∧ (snapW10.map Prod.fst).Nodup) :=
  ⟨(fileseeker_C10_duplicate_roots fsW10 [["r10"], ["r10"]]).1,
   by decide,
   (fileseeker_C10_duplicate_roots fsW10 [["r10"], ["r10"]]).2 snapW10 (by decide)⟩

/-- C2: File-level classification.  For a known directory (present in the
stored DirectoryMap and reached by the fresh walk of its root), the
DiffResult assigns each filename of the union of live filenames and stored
keys: `UNMODIFIED` when present in both with equal recomputed hash,
`MODIFIED` when present in both with different hash, `ADDED` when live
only, `DELETED` when stored only. -/
theorem fileseeker_C2_file_classification {fs : FS} {snap res : Snapshot}
    {root : FPath} {stored : DirectoryMap} {dp : FPath} {files : List FSFile}
    {fm : FileMap}
    (hdet : detect fs (some snap) = some res)
    (hkeys : (snap.map Prod.fst).Nodup)
    (hroot : (root, stored) ∈ snap)
    (hn : ((liveWalk fs root).map Prod.fst).Nodup)
    (hw : (dp, files) ∈ liveWalk fs root)
    (hst : dlookup stored dp = some fm)
    (hfn : (files.map FSFile.fname).Nodup) :
    ∃ dm' m, dlookup res root = some dm' ∧ dlookup dm' dp = some m ∧
      (∀ f ∈ files, ∀ sh, dlookup fm f.fname = some sh →
        ∃ hv, string_hash f = some hv ∧
          dlookup m f.fname = some (if hv = sh then "UNMODIFIED" else "MODIFIED")) ∧
      (∀ f ∈ files, dlookup fm f.fname = none → dlookup m f.fname = some "ADDED") ∧
      (∀ fn ∈ fm.map Prod.fst, fn ∉ files.map FSFile.fname →
        dlookup m fn = some "DELETED") := by
  have hdet2 : detectRoots fs snap snap = some res := by simpa [detect] using hdet
  rcases drs_lookup hkeys hroot hdet2 with ⟨dm', hdr, hlook⟩
  rcases dr_known hn hw hst hdr with ⟨m, hdf, hdm⟩
  refine ⟨dm', m, hlook, hdm, ?_, ?_, ?_⟩
  · intro f hf sh hsh
    exact df_both hfn hf hsh hdf
  · intro f hf hsh
    exact df_added hfn hf hsh hdf
  · intro fn hmem hlive
    exact df_deleted hmem hlive hdf

/-- Witness for C2: a known directory in which one live file is new and
one stored file has disappeared. -/
theorem fileseeker_C2_file_classification_witness :
    (detect fsW2 (some snapW2) = some resW2 ∧ (["r2"], dmW2) ∈ snapW2 ∧
      dlookup dmW2 ["r2"] = some fmW2) ∧
    ∃ dm' m, dlookup resW2 ["r2"] = some dm' ∧ dlookup dm' ["r2"] = some m ∧
      (∀ f ∈ filesW2, ∀ sh, dlookup fmW2 f.fname = some sh →
        ∃ hv, string_hash f = some hv ∧
          dlookup m f.fname = some (if hv = sh then "UNMODIFIED" else "MODIFIED")) ∧
      (∀ f ∈ filesW2, dlookup fmW2 f.fname = none → dlookup m f.fname = some "ADDED") ∧
      (∀ fn ∈ fmW2.map Prod.fst, fn ∉ filesW2.map FSFile.fname →
        dlookup m fn = some "DELETED") :=
  ⟨⟨by decide, by decide, by decide⟩,
   @fileseeker_C2_file_classification fsW2 snapW2 resW2 ["r2"] dmW2 ["r2"] filesW2 fmW2
     (by decide) (by decide) (by decide) (by decide) (by decide) (by decide) (by decide)⟩

/-- C3: Directory-level classification.  For every directory path in the
union of fresh-walk paths and stored paths of a root: a path that exists
now but has no stored entry gets every current file classified `ADDED`;
a stored path absent from the fresh walk gets every stored file classified
`DELETED`.  The removed directory path itself carries no token: in the
DiffResult it still maps to a FileMap (whose leaves carry the tokens), as
the conclusion shape shows. -/
theorem fileseeker_C3_directory_classification {fs : FS} {snap res : Snapshot}
    {root : FPath} {stored : DirectoryMap}
    (hdet : detect fs (some snap) = some res)
    (hkeys : (snap.map Prod.fst).Nodup)
    (hroot : (root, stored) ∈ snap)
    (hn : ((liveWalk fs root).map Prod.fst).Nodup)
    (hnod : (stored.map Prod.fst).Nodup) :
    ∃ dm', dlookup res root = some dm' ∧
      (∀ dp files, (dp, files) ∈ liveWalk fs root → dlookup stored dp = none →
        ∃ am, dlookup dm' dp = some am ∧
          ∀ f ∈ files, dlookup am f.fname = some "ADDED") ∧
      (∀ dp fm, dlookup stored dp = some fm → dp ∉ (liveWalk fs root).map Prod.fst →
        ∃ delm, dlookup dm' dp = some delm ∧
          ∀ fn ∈ fm.map Prod.fst, dlookup delm fn = some "DELETED") := by
  have hdet2 : detectRoots fs snap snap = some res := by simpa [detect] using hdet
  rcases drs_lookup hkeys hroot hdet2 with ⟨dm', hdr, hlook⟩
  refine ⟨dm', hlook, ?_, ?_⟩
  · intro dp files hw hst
    exact ⟨addedFiles [] files, dr_added hn hw hst hdr,
      fun f hf => addedFiles_lookup hf⟩
  · intro dp fm hst hdp
    exact ⟨markAllDeleted fm fm, dr_removed hnod hst hdp hdr,
      fun fn hfn => markAllDeleted_lookup hfn⟩

/-- Witness for C3: a root in which one directory is newly created and one
stored directory has disappeared. -/
theorem fileseeker_C3_directory_classification_witness :
    (detect fsW3 (some snapW3) = some resW3 ∧ (["r3"], dmW3) ∈ snapW3) ∧
    ∃ dm', dlookup resW3 ["r3"] = some dm' ∧
      (∀ dp files, (dp, files) ∈ liveWalk fsW3 ["r3"] → dlookup dmW3 dp = none →
        ∃ am, dlookup dm' dp = some am ∧
          ∀ f ∈ files, dlookup am f.fname = some "ADDED") ∧
      (∀ dp fm, dlookup dmW3 dp = some fm → dp ∉ (liveWalk fsW3 ["r3"]).map Prod.fst →
        ∃ delm, dlookup dm' dp = some delm ∧
          ∀ fn ∈ fm.map Prod.fst, dlookup delm fn = some "DELETED") :=
  ⟨⟨by decide, by decide⟩,
   @fileseeker_C3_directory_classification fsW3 snapW3 resW3 ["r3"] dmW3
     (by decide) (by decide) (by decide) (by decide) (by decide)⟩

/-- C4 counterexample: two files whose raw byte contents differ (CR LF
versus LF) receive the same stored hash from `scan`, because the file is
read in text mode and the hash is taken of the re-encoded text, not the
raw bytes.  This refutes the claim that any byte-for-byte difference
yields different stored hashes. -/
theorem fileseeker_C4_counterexample :
    ([97, 13, 10] : List Nat) ≠ [97, 10] ∧
    storedHash (scan fsC4 [["c4"]]) ["c4"] ["c4"] "crlf.txt" =
      storedHash (scan fsC4 [["c4"]]) ["c4"] ["c4"] "lf.txt" ∧
    (storedHash (scan fsC4 [["c4"]]) ["c4"] ["c4"] "crlf.txt").isSome = true := by
  refine ⟨by decide, ?_, by decide⟩
  have h1 : storedHash (scan fsC4 [["c4"]]) ["c4"] ["c4"] "crlf.txt" =
      some (sha256hex [97, 10]) := by decide
  have h2 : storedHash (scan fsC4 [["c4"]]) ["c4"] ["c4"] "lf.txt" =
      some (sha256hex [97, 10]) := by decide
  rw [h1, h2]

/-- C4 amended: the stored content hash of every file recorded by `scan`
is the lowercase-hex SHA-256 of the UTF-8 re-encoding of the text-decoded,
newline-translated content of the file (not of its raw bytes); the file
had to be readable and valid UTF-8 for the scan to succeed at all. -/
theorem fileseeker_C4_amended {fs : FS} {roots : List FPath} {snap : Snapshot}
    {r : FPath} {tree : FSTree} {dp : FPath} {files : List FSFile} {f : FSFile}
    (hr : r ∈ roots) (hscan : scan fs roots = some snap)
    (hfs : dlookup fs r = some tree) (hwf : wfWalk (walk r tree) = true)
    (hw : (dp, files) ∈ walk r tree) (hf : f ∈ files) :
    f.readable = true ∧
    ∃ cs, utf8Decode f.content = some cs ∧
      storedHash (some snap) r dp f.fname =
        some (sha256hex (utf8Encode (nlTranslate cs))) := by
  have hscan2 : scanRoots fs [] roots = some snap := by simpa [scan] using hscan
  rcases scanRoots_lookup_valid hfs hr hscan2 with ⟨dm, hsw, hdm⟩
  rcases Bool.and_eq_true .. ▸ hwf with ⟨hp, hfnames⟩
  have hpaths : ((walk r tree).map Prod.fst).Nodup := lnodup_iff.mp hp
  have hnames : ((files).map FSFile.fname).Nodup :=
    lnodup_iff.mp (List.all_eq_true.mp hfnames (dp, files) hw)
  rcases scanWalk_lookup hpaths hw hsw with ⟨fm, hsf, hfm⟩
  rcases scanFiles_lookup hnames hf hsf with ⟨hv, hsh, hstored⟩
  cases hread : f.readable with
  | false => simp [string_hash, hread] at hsh
  | true =>
    refine ⟨rfl, ?_⟩
    simp only [string_hash, hread, if_pos] at hsh
    cases hdec : utf8Decode f.content with
    | none => simp [hdec] at hsh
    | some cs =>
      simp only [hdec, Option.map_some'] at hsh
      refine ⟨cs, rfl, ?_⟩
      simp only [storedHash, hdm, hfm, hstored]
      rw [← hsh]

/-- Witness for the amended C4 at a file with empty content, whose stored
hash is the well-known SHA-256 of the empty byte string. -/
theorem fileseeker_C4_amended_witness :
    (scan fsW4 [["w4"]] = some snapW4 ∧ (fileW4 ∈ filesW4) ∧
      wfWalk (walk ["w4"] treeW4) = true) ∧
    (fileW4.readable = true ∧
      ∃ cs, utf8Decode fileW4.content = some cs ∧
        storedHash (some snapW4) ["w4"] ["w4"] fileW4.fname =
          some (sha256hex (utf8Encode (nlTranslate cs)))) :=
  ⟨⟨by decide, by decide, by decide⟩,
   @fileseeker_C4_amended fsW4 [["w4"]] snapW4 ["w4"] treeW4 ["w4"] filesW4 fileW4
     (by decide) (by decide) rfl (by decide) (by decide) (by decide)⟩

/-- C5 counterexample: a directory holding an unreadable file and a
readable one.  `scan` does not skip the unreadable file and continue: the
whole scan aborts and no snapshot artifact at all is written, so the
readable sibling is not recorded either. -/
theorem fileseeker_C5_counterexample : scan fsC5 [["c5"]] = none := by decide

/-- C5 amended: a file that cannot be opened during the walk of a valid
root is fatal to the whole scan: the exception propagates out of the root
loop and no snapshot artifact is written for anything. -/
theorem fileseeker_C5_amended {fs : FS} {roots : List FPath} {r : FPath}
    {tree : FSTree} {dp : FPath} {files : List FSFile} {f : FSFile}
    (hr : r ∈ roots) (hfs : dlookup fs r = some tree)
    (hw : (dp, files) ∈ walk r tree) (hf : f ∈ files)
    (hread : f.readable = false) :
    scan fs roots = none := by
  have hh : string_hash f = none := by simp [string_hash, hread]
  simp only [scan]
  exact scanRoots_fail hr hfs (scanWalk_fail hw (scanFiles_fail hf hh []) []) []

/-- Witness for the amended C5 at a concrete unreadable file. -/
theorem fileseeker_C5_amended_witness :
    (dlookup fsW5 ["w5"] = some treeW5 ∧ (["w5"], filesW5) ∈ walk ["w5"] treeW5 ∧
      fileW5.readable = false) ∧
    scan fsW5 [["w5"]] = none :=
  ⟨⟨rfl, by decide, by decide⟩,
   @fileseeker_C5_amended fsW5 [["w5"]] ["w5"] treeW5 ["w5"] filesW5 fileW5
     (by decide) rfl (by decide) (by decide) (by decide)⟩

/-- C6 counterexample: a valid, readable snapshot artifact whose root
still exists, but one live file that is present in both the directory and
the stored map cannot be read.  `detect` aborts with no output even though
the snapshot input was present and parseable — so the missing-or-
unparseable-snapshot condition is not the only case in which no DiffResult
is written. -/
theorem fileseeker_C6_counterexample :
    detect fsC6 (some snapC6) = none := by decide

/-- C6 amended: a missing or unparseable snapshot artifact yields no
output, and `detect` writes a DiffResult whenever additionally every live
file it must re-hash (present in a known directory and in its stored
FileMap) can be read and decoded; an unreadable such file is a further
fatal condition. -/
theorem fileseeker_C6_amended {fs : FS} {snap : Snapshot}
    (hok : detectReadsOk fs snap = true) :
    detect fs none = none ∧ ∃ res, detect fs (some snap) = some res := by
  refine ⟨rfl, ?_⟩
  have hok2 : ∀ e ∈ snap, ∀ dp files fm, (dp, files) ∈ liveWalk fs e.1 →
      dlookup e.2 dp = some fm → ∀ f ∈ files,
        (dlookup fm f.fname).isSome = true → (string_hash f).isSome = true := by
    intro e he dp files fm hw hfm f hf hs
    have h1 := List.all_eq_true.mp hok e he
    have h2 := List.all_eq_true.mp h1 (dp, files) hw
    have h3 := List.all_eq_true.mp h2 f hf
    simp only [hfm] at h3
    rcases Bool.or_eq_true .. ▸ h3 with h4 | h4
    · rw [Bool.not_eq_true'] at h4
      rw [h4] at hs
      exact Bool.noConfusion hs
    · exact h4
  rcases drs_success
      (fun e he => dr_success (fun dp files fm hw hfm => hok2 e he dp files fm hw hfm))
      snap with ⟨res, hres⟩
  exact ⟨res, by simp [detect, hres]⟩

/-- Witness for the amended C6 at a snapshot of an empty directory. -/
theorem fileseeker_C6_amended_witness :
    detectReadsOk fsW6 snapW6 = true ∧
    (detect fsW6 none = none ∧ ∃ res, detect fsW6 (some snapW6) = some res) :=
  ⟨by decide, @fileseeker_C6_amended fsW6 snapW6 (by decide)⟩

/-- C7 counterexample: two roots, the first of which diffs cleanly while a
file of the second cannot be read.  Instead of keeping the first root's
classifications and writing a partial DiffResult, `detect` aborts and
writes nothing: the earlier results are discarded. -/
theorem fileseeker_C7_counterexample :
    detect fsC7 (some snapC7) = none := by decide

/-- C7 amended: failures while re-hashing a live file of a known directory
are not scoped per root or per file: if any root of the snapshot contains
a known directory with a stored, live, but unreadable file, the whole
`detect` run returns nothing and no DiffResult artifact is written, so
classifications of roots processed earlier are discarded. -/
theorem fileseeker_C7_amended {fs : FS} {snap : Snapshot} {r : FPath}
    {stored : DirectoryMap} {tree : FSTree} {dp : FPath} {files : List FSFile}
    {fm : FileMap} {f : FSFile}
    (hroot : (r, stored) ∈ snap) (hfs : dlookup fs r = some tree)
    (hw : (dp, files) ∈ walk r tree) (hst : dlookup stored dp = some fm)
    (hf : f ∈ files) (hstf : (dlookup fm f.fname).isSome = true)
    (hh : string_hash f = none) :
    detect fs (some snap) = none := by
  have hdr := dr_fail hfs hw hst hf hstf hh
  simp [detect, drs_fail hroot hdr snap]

/-- Witness for the amended C7 at a snapshot whose single root holds an
unreadable stored file. -/
theorem fileseeker_C7_amended_witness :
    ((["w7"], dmW7) ∈ snapW7 ∧ dlookup fsW7 ["w7"] = some treeW7 ∧
      dlookup dmW7 ["w7"] = some fmW7 ∧ string_hash fileW7 = none) ∧
    detect fsW7 (some snapW7) = none :=
  ⟨⟨by decide, rfl, by decide, by decide⟩,
   @fileseeker_C7_amended fsW7 snapW7 ["w7"] dmW7 treeW7 ["w7"] filesW7 fmW7 fileW7
     (by decide) rfl (by decide) (by decide) (by decide) (by decide) (by decide)⟩

/-- C9 counterexample: the diagnostic that `scan` emits for an invalid
root is logged at error level (`logging.error`), not warning level: the
root-loop log for an invalid root consists of exactly one record whose
level name is `ERROR`. -/
theorem fileseeker_C9_counterexample :
    scanRootLog fsW9 [["no9"], ["ok9"]] =
      [("ERROR", "Input directory no9 is invalid")] ∧
    "ERROR" ≠ "WARNING" := by
  exact ⟨by decide, by decide⟩

/-- C9 amended: a root path that is not a directory is skipped — the scan
of the remaining roots and the resulting artifact (or failure) are exactly
as if the invalid root had not been given — no snapshot entry is created
for it, and an error-level diagnostic naming the invalid path is logged. -/
theorem fileseeker_C9_amended {fs : FS} {r : FPath} (hr : dlookup fs r = none)
    (pre post : List FPath) :
    scan fs (pre ++ r :: post) = scan fs (pre ++ post) ∧
    ("ERROR", "Input directory " ++ String.intercalate "/" r ++ " is invalid") ∈
      scanRootLog fs (pre ++ r :: post) := by
  constructor
  · simp only [scan]
    exact scanRoots_skip hr pre post []
  · exact scanRootLog_mem hr pre post

/-- Witness for the amended C9: one valid root followed by an invalid
one. -/
theorem fileseeker_C9_amended_witness :
    dlookup fsW9 ["no9"] = none ∧
    (scan fsW9 ([["ok9"]] ++ ["no9"] :: []) = scan fsW9 ([["ok9"]] ++ []) ∧
      ("ERROR", "Input directory " ++ String.intercalate "/" ["no9"] ++ " is invalid") ∈
        scanRootLog fsW9 ([["ok9"]] ++ ["no9"] :: [])) :=
  ⟨rfl, @fileseeker_C9_amended fsW9 ["no9"] rfl [["ok9"]] []⟩
